import Mathlib

/-!
Shallow embedding of the two core components of the vmemcache repository:
the critnib index (src/critnib.c) and the fragment heap (vmemcache_heap.c),
together with proofs of the specification claims about them.

Keys are modelled as lists of byte values (`List Nat`, each element < 256 in
well-formed uses); value handles are modelled as `Nat`.  Machine integers are
modelled as `Nat`/`Int` with the exact overflow/sign behaviour of the C code
made explicit where it matters (in particular the signed `char` arithmetic in
`slice_index` and in the divergence-shift computation of `critnib_set`).
-/

namespace VMC

/-! ## Byte-level arithmetic of critnib.c

`slice_index(char b, bitn_t bit)` in the C source computes `(b >> bit) & NIB`
where `b` is a (signed) `char`.  The integer promotion sign-extends `b`, the
shift is arithmetic (floor division), and `& 15` takes the value modulo 16 of
the two's-complement representation.  We model this exactly. -/

/-- value of the signed `char` holding byte `b` (two's complement) -/
def sChar (b : Nat) : Int := if b < 128 then (b : Int) else (b : Int) - 256

/-- `slice_index` of critnib.c: `(b >> bit) & NIB` on a signed char, with
`NIB = 15`.  Arithmetic right shift is floor division; `& 15` of a
two's-complement value is the nonnegative remainder modulo 16. -/
def sliceIndex (b bit : Nat) : Nat := (((sChar b).fdiv ((2 : Int) ^ bit)) % 16).toNat

/-- byte `b` of key `k` (0 past the end of the key; the operations only read
in range, as claim C7 shows) -/
def byteAt : List Nat → Nat → Nat
  | [], _ => 0
  | x :: _, 0 => x
  | _ :: xs, n + 1 => byteAt xs n

/-- nibble of key `k` selected by byte offset `b` and bit shift `s` -/
def nibAt (k : List Nat) (b s : Nat) : Nat := sliceIndex (byteAt k b) s

/-- bitwise xor of the low `f` bits of `x` and `y` (structural recursion so
that concrete instances evaluate in the kernel) -/
def xorFuel : Nat → Nat → Nat → Nat
  | 0, _, _ => 0
  | f + 1, x, y => (if x % 2 = y % 2 then 0 else 1) + 2 * xorFuel f (x / 2) (y / 2)

/-- `char at = nk->key[diff] ^ key[diff]` of critnib.c: xor of two bytes,
truncated to 8 bits by the conversion to `char` -/
def xor8 (x y : Nat) : Nat := xorFuel 8 x y

/-- most-significant-bit scan with explicit fuel -/
def msbFuel : Nat → Nat → Nat
  | 0, _ => 0
  | f + 1, x => if x < 2 then 0 else msbFuel f (x / 2) + 1

/-- Modelled from the spec: `util_mssb_index` (from the util library, which is
not part of the provided sources) returns the 0-based index of the
most-significant set bit of its 32-bit argument. -/
def util_mssb_index (x : Nat) : Nat := msbFuel 32 x

/-- `(uint32_t)at` where `at` is the signed `char` holding byte `b`:
sign extension to 32 bits -/
def sext32 (b : Nat) : Nat := if b < 128 then b else b + 0xFFFFFF00

/-- the shift computed by critnib_set for diverging bytes `x` (witness key)
and `y` (new key): `util_mssb_index((uint32_t)at) & (bitn_t)~(SLICE - 1)`;
masking the two low bits of a number below 256 is `/ 4 * 4` -/
def shOf (x y : Nat) : Nat := util_mssb_index (sext32 (xor8 x y)) / 4 * 4

/-! ## Fragment heap (vmemcache_heap.c)

The VEC of heap entries is modelled as a list whose head is the back of the
vector (the top of the LIFO stack): `VEC_PUSH_BACK` is cons and
`VEC_POP_BACK` takes the head.  The mutex and the atomicity of `size_used`
are concurrency artefacts outside the sequential model. -/

structure HeapEntry where
  ptr : Nat
  size : Nat
  deriving DecidableEq

structure Heap where
  fragment_size : Nat
  entries : List HeapEntry
  size_used : Nat
  deriving DecidableEq

/-- Modelled from the spec: `ALIGN_UP` (a util macro, not part of the provided
sources) rounds `size` up to a multiple of `align`. -/
def ALIGN_UP (size align : Nat) : Nat := (size + align - 1) / align * align

/-- vmcache_heap_create: seed the stack with the single whole-heap entry -/
def vmcache_heap_create (addr size fragment_size : Nat) : Heap :=
  { fragment_size := fragment_size, entries := [⟨addr, size⟩], size_used := 0 }

/-- vmcache_alloc: round the request up, pop the top entry; if it is strictly
larger than the rounded request, push the tail back and truncate the result;
on an empty stack return the `{NULL, 0}` entry and leave the heap unchanged -/
def vmcache_alloc (heap : Heap) (size : Nat) : HeapEntry × Heap :=
  let size1 := ALIGN_UP size heap.fragment_size
  match heap.entries with
  | [] => (⟨0, 0⟩, heap)
  | he :: rest =>
      if size1 < he.size then
        (⟨he.ptr, size1⟩,
         { heap with entries := ⟨he.ptr + size1, he.size - size1⟩ :: rest,
                     size_used := heap.size_used + size1 })
      else
        (he, { heap with entries := rest, size_used := heap.size_used + he.size })

/-- vmcache_free: subtract from the statistic and push the entry back -/
def vmcache_free (heap : Heap) (he : HeapEntry) : Heap :=
  { heap with entries := he :: heap.entries, size_used := heap.size_used - he.size }

/-- vmcache_get_heap_used_size -/
def vmcache_get_heap_used_size (heap : Heap) : Nat := heap.size_used

/-- a caller operation on the heap: an allocation request, or the return of
the `i`-th entry currently held by the callers -/
inductive HOp where
  | alloc (req : Nat)
  | free (i : Nat)

/-- run one caller operation on (heap state, entries held by callers); the
caller keeps the returned entry only when the pop succeeded (nonempty stack),
and only frees entries it holds -/
def runHOp (st : Heap × List HeapEntry) (op : HOp) : Heap × List HeapEntry :=
  match op with
  | .alloc req =>
      let r := vmcache_alloc st.1 req
      match st.1.entries with
      | [] => (r.2, st.2)
      | _ :: _ => (r.2, r.1 :: st.2)
  | .free i =>
      if h : i < st.2.length then
        (vmcache_free st.1 (st.2.get ⟨i, h⟩), st.2.eraseIdx i)
      else st

def runHOps (st : Heap × List HeapEntry) (ops : List HOp) : Heap × List HeapEntry :=
  ops.foldl runHOp st

def sumSizes (l : List HeapEntry) : Nat := (l.map HeapEntry.size).sum

/-! ## Critnib index (critnib.c)

A child slot holds a leaf, an internal node, or nothing (`NULL`).  The C child
array has exactly `SLNODES = 16` slots; the list of children of every node
built by the operations has length 16. -/

inductive CNode where
  | leaf (key : List Nat) (value : Nat)
  | node (child : List (Option CNode)) (byte : Nat) (bit : Nat)

structure Critnib where
  root : Option CNode

/-- critnib_new -/
def critnib_new : Critnib := ⟨none⟩

/-- read child slot `i` (`NULL` when out of range, which never happens on
well-formed nodes) -/
def childAt (ch : List (Option CNode)) (i : Nat) : Option CNode := ch.getD i none

/-- write child slot `i` -/
def setChild (ch : List (Option CNode)) (i : Nat) (c : Option CNode) :
    List (Option CNode) := ch.set i c

/-- the 16 `NULL` slots of a freshly zero-allocated node -/
def emptyChildren : List (Option CNode) := List.replicate 16 none

/-- first nonempty child slot, in index order (the scan of `any_leaf`) -/
def firstChild : List (Option CNode) → Option CNode
  | [] => none
  | some m :: _ => some m
  | none :: rest => firstChild rest

theorem sizeOf_childAt (ch : List (Option CNode)) (i : Nat) :
    sizeOf (childAt ch i) ≤ sizeOf ch := by
  induction ch generalizing i with
  | nil => simp [childAt]
  | cons x xs ih =>
    cases i with
    | zero => simp [childAt]; omega
    | succ j =>
      have := ih j
      simp [childAt] at this ⊢
      omega

theorem sizeOf_of_childAt_eq {ch : List (Option CNode)} {i : Nat} {m : CNode}
    (h : childAt ch i = some m) : sizeOf m < sizeOf ch := by
  have := sizeOf_childAt ch i
  rw [h] at this
  simp at this
  omega

theorem sizeOf_childAt_lt_node (ch : List (Option CNode)) (i b s : Nat) :
    sizeOf (childAt ch i) < sizeOf (some (CNode.node ch b s) : Option CNode) := by
  have := sizeOf_childAt ch i
  simp only [Option.some.sizeOf_spec, CNode.node.sizeOf_spec]
  omega

theorem sizeOf_firstChild {ch : List (Option CNode)} {m : CNode}
    (h : firstChild ch = some m) : sizeOf m < sizeOf ch := by
  induction ch with
  | nil => simp [firstChild] at h
  | cons x xs ih =>
    match x with
    | some a =>
      simp [firstChild] at h
      subst h
      simp
      omega
    | none =>
      simp [firstChild] at h
      have := ih h
      simp
      omega

theorem sizeOf_firstChild_le (ch : List (Option CNode)) :
    sizeOf (firstChild ch) ≤ sizeOf ch := by
  cases h : firstChild ch with
  | none =>
      cases ch with
      | nil => simp
      | cons x xs => simp; omega
  | some m =>
      have := sizeOf_firstChild h
      simp
      omega

theorem sizeOf_firstChild_lt_node (ch : List (Option CNode)) (b s : Nat) :
    sizeOf (firstChild ch) < sizeOf (some (CNode.node ch b s) : Option CNode) := by
  have := sizeOf_firstChild_le ch
  simp only [Option.some.sizeOf_spec, CNode.node.sizeOf_spec]
  omega

/-- any_leaf of critnib.c: follow the first nonempty child slot down to a
leaf; `none` when a node on the way has no nonempty child at all -/
def any_leaf : Option CNode → Option (List Nat × Nat)
  | none => none
  | some (.leaf k v) => some (k, v)
  | some (.node ch _ _) => any_leaf (firstChild ch)
termination_by t => sizeOf t
decreasing_by
  apply sizeOf_firstChild_lt_node

/-- first descent of critnib_set: walk by the nibbles of `key` while the byte
offset is in range; on an empty slot or a too-large byte offset fall back to
`any_leaf` of the current node.  Returns the witness leaf's key. -/
def find_witness (key : List Nat) : Option CNode → Option (List Nat)
  | none => none
  | some (.leaf lk _) => some lk
  | some (.node ch b s) =>
      if b < key.length then
        if (childAt ch (sliceIndex (byteAt key b) s)).isSome then
          find_witness key (childAt ch (sliceIndex (byteAt key b) s))
        else (any_leaf (some (.node ch b s))).map Prod.fst
      else (any_leaf (some (.node ch b s))).map Prod.fst
termination_by t => sizeOf t
decreasing_by
  apply sizeOf_childAt_lt_node

/-- index of the first differing byte below the minimum of the lengths
(`none` when there is none: an exact match or a prefix relationship) -/
def firstDiff : List Nat → List Nat → Option Nat
  | x :: xs, y :: ys => if x = y then (firstDiff xs ys).map (· + 1) else some 0
  | _, _ => none

/-- result of critnib_set: 0, EEXIST, or a failed internal ASSERT (the C
would crash; it cannot happen on well-formed trees) -/
inductive SetResult where
  | ok
  | eexist
  | assertFail
  deriving DecidableEq

/-- the new internal node spliced in by critnib_set: the existing subtree
goes to the witness key's nibble, the new leaf to the new key's nibble (in
that order: the C stores the witness slot first) -/
def mkNewNode (t : Option CNode) (key : List Nat) (v : Nat) (nkkey : List Nat)
    (diff sh : Nat) : CNode :=
  let ch0 := setChild emptyChildren (sliceIndex (byteAt nkkey diff) sh) t
  let ch1 := setChild ch0 (sliceIndex (byteAt key diff) sh) (some (.leaf key v))
  .node ch1 diff sh

/-- second descent of critnib_set: walk by the nibbles of `key` while the
node coordinate is earlier than the divergence point `(diff, sh)`; on an
empty slot store the new leaf there, otherwise splice in a new node -/
def splice (key : List Nat) (v : Nat) (nkkey : List Nat) (diff sh : Nat) :
    Option CNode → Option CNode
  | none => some (.leaf key v)
  | some (.leaf lk lv) => some (mkNewNode (some (.leaf lk lv)) key v nkkey diff sh)
  | some (.node ch b s) =>
      if b < diff ∨ (b = diff ∧ sh ≤ s) then
        let i := sliceIndex (byteAt key b) s
        some (.node (setChild ch i (splice key v nkkey diff sh (childAt ch i))) b s)
      else some (mkNewNode (some (.node ch b s)) key v nkkey diff sh)
termination_by t => sizeOf t
decreasing_by
  apply sizeOf_childAt_lt_node

/-- critnib_set: empty tree stores the leaf at the root; otherwise find a
witness leaf, locate the divergence point (EEXIST if there is none), and
splice the new leaf in -/
def critnib_set (c : Critnib) (key : List Nat) (value : Nat) :
    SetResult × Critnib :=
  match c.root with
  | none => (.ok, ⟨some (.leaf key value)⟩)
  | some r =>
      match find_witness key (some r) with
      | none => (.assertFail, c)
      | some nkkey =>
          match firstDiff nkkey key with
          | none => (.eexist, c)
          | some diff =>
              let sh := shOf (byteAt nkkey diff) (byteAt key diff)
              (.ok, ⟨splice key value nkkey diff sh c.root⟩)

/-- lookup descent of critnib_get: byte offset past the key length is a miss;
at a leaf the whole key is compared (length and all bytes) -/
def getRec (key : List Nat) : Option CNode → Option Nat
  | none => none
  | some (.leaf lk lv) => if key = lk then some lv else none
  | some (.node ch b s) =>
      if key.length ≤ b then none
      else getRec key (childAt ch (sliceIndex (byteAt key b) s))
termination_by t => sizeOf t
decreasing_by
  apply sizeOf_childAt_lt_node

/-- critnib_get -/
def critnib_get (c : Critnib) (key : List Nat) : Option Nat := getRec key c.root

/-- removal descent of critnib_remove, returning the extracted value and the
replacement subtree.  When the matched leaf is a child of a node, the node's
children are inspected after the removal: with exactly one nonempty child
left the node is elided and the child promoted (the C writes it into the
grandparent slot); the impossible zero-children case mirrors the release
behaviour of the C (`*pp = NULL` after the ASSERT). -/
def removeRec (key : List Nat) : Option CNode → Option Nat × Option CNode
  | none => (none, none)
  | some (.leaf lk lv) =>
      if key = lk then (some lv, none) else (none, some (.leaf lk lv))
  | some (.node ch b s) =>
      if key.length ≤ b then (none, some (.node ch b s))
      else
        let i := sliceIndex (byteAt key b) s
        match childAt ch i with
        | none => (none, some (.node ch b s))
        | some (.leaf lk lv) =>
            if key = lk then
              let ch1 := setChild ch i none
              match ch1.filterMap id with
              | [] => (some lv, none)
              | [m] => (some lv, some m)
              | _ :: _ :: _ => (some lv, some (.node ch1 b s))
            else (none, some (.node ch b s))
        | some (.node _ _ _) =>
            match removeRec key (childAt ch i) with
            | (none, _) => (none, some (.node ch b s))
            | (some v, t2) => (some v, some (.node (setChild ch i t2) b s))
termination_by t => sizeOf t
decreasing_by
  apply sizeOf_childAt_lt_node

/-- critnib_remove -/
def critnib_remove (c : Critnib) (key : List Nat) : Option Nat × Critnib :=
  let r := removeRec key c.root
  (r.1, ⟨r.2⟩)

/-! ### Instrumented and state-threaded variants

`getT`/`removeT` additionally return the list of key indices read by the
descent (the `key[n->byte]` reads, and the indices compared by `memcmp`,
which the C short-circuits unless the lengths agree).  `getS` threads the
tree through the descent, writing back the (unmodified) child it recursed
into even if the recursion had changed it. -/

def getT (key : List Nat) : Option CNode → Option Nat × List Nat
  | none => (none, [])
  | some (.leaf lk lv) =>
      if key.length = lk.length then
        ((if key = lk then some lv else none), List.range key.length)
      else (none, [])
  | some (.node ch b s) =>
      if key.length ≤ b then (none, [])
      else
        let r := getT key (childAt ch (sliceIndex (byteAt key b) s))
        (r.1, b :: r.2)
termination_by t => sizeOf t
decreasing_by
  apply sizeOf_childAt_lt_node

def removeT (key : List Nat) : Option CNode → Option Nat × List Nat
  | none => (none, [])
  | some (.leaf lk lv) =>
      if key.length = lk.length then
        ((if key = lk then some lv else none), List.range key.length)
      else (none, [])
  | some (.node ch b s) =>
      if key.length ≤ b then (none, [])
      else
        let r := removeT key (childAt ch (sliceIndex (byteAt key b) s))
        (r.1, b :: r.2)
termination_by t => sizeOf t
decreasing_by
  apply sizeOf_childAt_lt_node

def getS (key : List Nat) : Option CNode → Option Nat × Option CNode
  | none => (none, none)
  | some (.leaf lk lv) =>
      ((if key = lk then some lv else none), some (.leaf lk lv))
  | some (.node ch b s) =>
      if key.length ≤ b then (none, some (.node ch b s))
      else
        let i := sliceIndex (byteAt key b) s
        let r := getS key (childAt ch i)
        (r.1, some (.node (setChild ch i r.2) b s))
termination_by t => sizeOf t
decreasing_by
  apply sizeOf_childAt_lt_node

/-- critnib_get with the index state threaded through the call -/
def critnib_get_state (c : Critnib) (key : List Nat) : Option Nat × Critnib :=
  let r := getS key c.root
  (r.1, ⟨r.2⟩)

/-! ### Leaves, observers and the structural invariant -/

mutual
def leavesN : CNode → List (List Nat × Nat)
  | .leaf k v => [(k, v)]
  | .node ch _ _ => leavesL ch

def leavesL : List (Option CNode) → List (List Nat × Nat)
  | [] => []
  | none :: rest => leavesL rest
  | some m :: rest => leavesN m ++ leavesL rest
end

def leaves : Option CNode → List (List Nat × Nat)
  | none => []
  | some n => leavesN n

def keysOf (t : Option CNode) : List (List Nat) := (leaves t).map Prod.fst

mutual
def allBitsN : CNode → List Nat
  | .leaf _ _ => []
  | .node ch _ s => s :: allBitsL ch

def allBitsL : List (Option CNode) → List Nat
  | [] => []
  | none :: rest => allBitsL rest
  | some m :: rest => allBitsN m ++ allBitsL rest
end

/-- the `bit` fields of all internal nodes of the tree -/
def allBits : Option CNode → List Nat
  | none => []
  | some n => allBitsN n

mutual
/-- every internal node of the tree has at least two nonempty child slots -/
def min2N : CNode → Bool
  | .leaf _ _ => true
  | .node ch _ _ => decide (2 ≤ (ch.filterMap id).length) && min2L ch

def min2L : List (Option CNode) → Bool
  | [] => true
  | none :: rest => min2L rest
  | some m :: rest => min2N m && min2L rest
end

def min2Ok : Option CNode → Bool
  | none => true
  | some n => min2N n

/-- keys `k1`, `k2` agree on everything the tree discriminates strictly
before coordinate `(b, s)`: all bytes before `b`, and the nibbles of byte `b`
at the shifts above `s` that the implementation uses (28, then 4) -/
def agreeUpToB (b s : Nat) (k1 k2 : List Nat) : Bool :=
  (k1.take b == k2.take b) &&
  (if s < 28 then nibAt k1 b 28 == nibAt k2 b 28 else true) &&
  (if s < 4 then nibAt k1 b 4 == nibAt k2 b 4 else true)

mutual
/-- structural invariant of reachable trees: children lists have length 16,
bit shifts are among {0, 4, 28}, internal nodes have at least two nonempty
children, every leaf below child `i` of a node at `(b, s)` has key length
greater than `b` and nibble `i` at `(b, s)`, child nodes have strictly later
coordinates, and all leaves below a node agree up to its coordinate -/
def invN : CNode → Bool
  | .leaf k _ => k.all (fun x => decide (x < 256))
  | .node ch b s =>
      (ch.length == 16) &&
      ((s == 0) || (s == 4) || (s == 28)) &&
      decide (2 ≤ (ch.filterMap id).length) &&
      invCh ch b s 0 &&
      ((leavesL ch).map Prod.fst).all (fun k1 =>
        ((leavesL ch).map Prod.fst).all (fun k2 => agreeUpToB b s k1 k2))

def invCh : List (Option CNode) → Nat → Nat → Nat → Bool
  | [], _, _, _ => true
  | none :: rest, b, s, i => invCh rest b s (i + 1)
  | some m :: rest, b, s, i =>
      invN m &&
      ((leavesN m).all fun p => decide (b < p.1.length) && (nibAt p.1 b s == i)) &&
      (match m with
       | .leaf _ _ => true
       | .node _ b2 s2 => decide (b < b2 ∨ (b = b2 ∧ s2 < s))) &&
      invCh rest b s (i + 1)
end

/-- invariant of a whole tree -/
def Inv : Option CNode → Bool
  | none => true
  | some n => invN n

/-- key whose bytes are in range -/
def ValidKey (k : List Nat) : Prop := ∀ x ∈ k, x < 256

/-- a caller operation on the index -/
inductive COp where
  | set (k : List Nat) (v : Nat)
  | remove (k : List Nat)

def runCOp (c : Critnib) : COp → Critnib
  | .set k v => (critnib_set c k v).2
  | .remove k => (critnib_remove c k).2

def runCOps (ops : List COp) : Critnib := ops.foldl runCOp critnib_new

def copKey : COp → List Nat
  | .set k _ => k
  | .remove k => k

/-- run a list of insertions from the empty index -/
def runSets (ps : List (List Nat × Nat)) : Critnib :=
  ps.foldl (fun c p => (critnib_set c p.1 p.2).2) critnib_new

/-- coordinate `(b0, s0)` is strictly earlier (closer to the root) than
`(b, s)`: smaller byte, or same byte and strictly larger shift -/
def coordLt (b0 s0 b s : Nat) : Prop := b0 < b ∨ (b0 = b ∧ s < s0)

/-- propositional form of `agreeUpToB` -/
def AgreeUpTo (b s : Nat) (k1 k2 : List Nat) : Prop :=
  k1.take b = k2.take b ∧
  (s < 28 → nibAt k1 b 28 = nibAt k2 b 28) ∧
  (s < 4 → nibAt k1 b 4 = nibAt k2 b 4)

/-- the root of `t`, if an internal node, has a coordinate strictly later
than `(b0, s0)` -/
def rootLater (b0 s0 : Nat) : Option CNode → Prop
  | some (.node _ b s) => coordLt b0 s0 b s
  | _ => True

/-! ## Byte-level lemmas -/

theorem sliceIndex0 (b : Nat) (h : b < 256) : sliceIndex b 0 = b % 16 := by
  rw [sliceIndex, Int.fdiv_eq_ediv _ (by norm_num)]
  simp only [sChar, pow_zero]
  split <;> omega

theorem sliceIndex4 (b : Nat) (h : b < 256) : sliceIndex b 4 = b / 16 := by
  rw [sliceIndex, Int.fdiv_eq_ediv _ (by norm_num)]
  have h16 : (2 : Int) ^ 4 = 16 := by norm_num
  simp only [sChar, h16]
  split <;> omega

theorem sliceIndex28 (b : Nat) (h : b < 256) :
    sliceIndex b 28 = if b < 128 then 0 else 15 := by
  rw [sliceIndex, Int.fdiv_eq_ediv _ (by norm_num)]
  have h28 : (2 : Int) ^ 28 = 268435456 := by norm_num
  simp only [sChar, h28]
  split <;> omega

theorem sliceIndex_lt_16 (b s : Nat) : sliceIndex b s < 16 := by
  rw [sliceIndex]
  have h1 : (0 : Int) ≤ (sChar b).fdiv ((2 : Int) ^ s) % 16 := Int.emod_nonneg _ (by norm_num)
  have h2 : (sChar b).fdiv ((2 : Int) ^ s) % 16 < 16 := Int.emod_lt_of_pos _ (by norm_num)
  omega

theorem nibAt_lt_16 (k : List Nat) (b s : Nat) : nibAt k b s < 16 := sliceIndex_lt_16 _ _

theorem xorFuel_lt (f x y : Nat) : xorFuel f x y < 2 ^ f := by
  induction f generalizing x y with
  | zero => simp [xorFuel]
  | succ g ih =>
    have h := ih (x / 2) (y / 2)
    simp only [xorFuel]
    have : 2 ^ (g + 1) = 2 * 2 ^ g := by ring
    split <;> omega

theorem xorFuel_split (a b x y : Nat) :
    xorFuel (a + b) x y = xorFuel a x y + 2 ^ a * xorFuel b (x / 2 ^ a) (y / 2 ^ a) := by
  induction a generalizing x y with
  | zero => simp [xorFuel]
  | succ g ih =>
    have heq : g + 1 + b = (g + b) + 1 := by omega
    rw [heq]
    simp only [xorFuel]
    rw [ih (x / 2) (y / 2)]
    have hx : x / 2 / 2 ^ g = x / 2 ^ (g + 1) := by
      rw [Nat.div_div_eq_div_mul]
      congr 1
      ring
    have hy : y / 2 / 2 ^ g = y / 2 ^ (g + 1) := by
      rw [Nat.div_div_eq_div_mul]
      congr 1
      ring
    rw [hx, hy, pow_succ]
    ring

theorem mod_two_pow_succ (x g : Nat) : x % 2 ^ (g + 1) = 2 * (x / 2 % 2 ^ g) + x % 2 := by
  have hg : 1 ≤ 2 ^ g := Nat.one_le_two_pow
  have hx2 : x % 2 < 2 := Nat.mod_lt _ (by norm_num)
  have hb : x / 2 % 2 ^ g < 2 ^ g := Nat.mod_lt _ (by positivity)
  have h1 : 2 * (x / 2) % (2 * 2 ^ g) = 2 * (x / 2 % 2 ^ g) := Nat.mul_mod_mul_left 2 _ _
  have h2 : x % 2 % (2 * 2 ^ g) = x % 2 := Nat.mod_eq_of_lt (by omega)
  calc x % 2 ^ (g + 1) = (2 * (x / 2) + x % 2) % (2 * 2 ^ g) := by
        rw [Nat.div_add_mod, pow_succ, mul_comm (2 ^ g) 2]
    _ = (2 * (x / 2) % (2 * 2 ^ g) + x % 2 % (2 * 2 ^ g)) % (2 * 2 ^ g) := by
        rw [Nat.add_mod]
    _ = (2 * (x / 2 % 2 ^ g) + x % 2) % (2 * 2 ^ g) := by rw [h1, h2]
    _ = 2 * (x / 2 % 2 ^ g) + x % 2 := Nat.mod_eq_of_lt (by omega)

theorem xorFuel_eq_zero_iff (f x y : Nat) :
    xorFuel f x y = 0 ↔ x % 2 ^ f = y % 2 ^ f := by
  induction f generalizing x y with
  | zero => simp [xorFuel, Nat.mod_one]
  | succ g ih =>
    simp only [xorFuel]
    rw [mod_two_pow_succ x g, mod_two_pow_succ y g]
    have h3 := ih (x / 2) (y / 2)
    have hx2 : x % 2 < 2 := Nat.mod_lt _ (by norm_num)
    have hy2 : y % 2 < 2 := Nat.mod_lt _ (by norm_num)
    constructor
    · intro h
      have hb : (if x % 2 = y % 2 then 0 else 1) = 0 ∧ xorFuel g (x / 2) (y / 2) = 0 := by
        constructor <;> omega
      have hm : x % 2 = y % 2 := by
        rcases hb with ⟨hb1, _⟩
        by_contra hne
        simp [hne] at hb1
      have := h3.1 hb.2
      omega
    · intro h
      have hm : x % 2 = y % 2 := by omega
      have hd : x / 2 % 2 ^ g = y / 2 % 2 ^ g := by omega
      have := h3.2 hd
      simp [hm, this]

theorem xor8_lt (x y : Nat) : xor8 x y < 256 := by
  have := xorFuel_lt 8 x y
  norm_num at this
  exact this

theorem xor8_ne_zero {x y : Nat} (hx : x < 256) (hy : y < 256) (hne : x ≠ y) :
    xor8 x y ≠ 0 := by
  intro hc
  have := (xorFuel_eq_zero_iff 8 x y).1 hc
  norm_num at this
  omega

set_option maxRecDepth 4000 in
theorem msz_char : ∀ z, z < 256 →
    util_mssb_index (sext32 z) / 4 * 4 =
      (if 128 ≤ z then 28 else if 16 ≤ z then 4 else 0) := by decide

theorem shOf_char (x y : Nat) :
    shOf x y = if 128 ≤ xor8 x y then 28 else if 16 ≤ xor8 x y then 4 else 0 :=
  msz_char _ (xor8_lt x y)

theorem xor8_hi_iff (x y : Nat) (hx : x < 256) (hy : y < 256) :
    128 ≤ xor8 x y ↔ x / 128 ≠ y / 128 := by
  have e1 := xorFuel_split 7 1 x y
  norm_num at e1
  have b7 := xorFuel_lt 7 x y
  norm_num at b7
  have b1 := xorFuel_lt 1 (x / 128) (y / 128)
  norm_num at b1
  have h0 := xorFuel_eq_zero_iff 1 (x / 128) (y / 128)
  norm_num at h0
  have hx1 : x / 128 < 2 := by omega
  have hy1 : y / 128 < 2 := by omega
  rw [show xor8 x y = xorFuel 8 x y from rfl]
  constructor
  · intro hge heq
    have hm : x / 128 % 2 = y / 128 % 2 := by omega
    have hz0 : xorFuel 1 (x / 128) (y / 128) = 0 := h0.2 hm
    omega
  · intro hne
    have hm : ¬(x / 128 % 2 = y / 128 % 2) := by omega
    have hnz : xorFuel 1 (x / 128) (y / 128) ≠ 0 := fun hc => hm (h0.1 hc)
    omega

theorem xor8_lo16_iff (x y : Nat) (hx : x < 256) (hy : y < 256) :
    xor8 x y < 16 ↔ x / 16 = y / 16 := by
  have e1 := xorFuel_split 4 4 x y
  norm_num at e1
  have b4 := xorFuel_lt 4 x y
  norm_num at b4
  have h0 := xorFuel_eq_zero_iff 4 (x / 16) (y / 16)
  norm_num at h0
  have hx1 : x / 16 < 16 := by omega
  have hy1 : y / 16 < 16 := by omega
  rw [show xor8 x y = xorFuel 8 x y from rfl]
  constructor
  · intro hlt
    have hz0 : xorFuel 4 (x / 16) (y / 16) = 0 := by omega
    have := h0.1 hz0
    omega
  · intro heq
    have hm : x / 16 % 16 = y / 16 % 16 := by omega
    have := h0.2 hm
    omega

theorem xor8_lo_mod_ne (x y : Nat) (hx : x < 256) (hy : y < 256)
    (h : xor8 x y < 16) (hnz : xor8 x y ≠ 0) : x % 16 ≠ y % 16 := by
  have e1 := xorFuel_split 4 4 x y
  norm_num at e1
  have b4 := xorFuel_lt 4 x y
  norm_num at b4
  have h0 := xorFuel_eq_zero_iff 4 x y
  norm_num at h0
  rw [show xor8 x y = xorFuel 8 x y from rfl] at h hnz
  intro heq
  have hz0 : xorFuel 4 x y = 0 := h0.2 heq
  omega

theorem xor8_mid_div_ne (x y : Nat) (hx : x < 256) (hy : y < 256)
    (h : 16 ≤ xor8 x y) : x / 16 ≠ y / 16 := by
  intro heq
  have := (xor8_lo16_iff x y hx hy).2 heq
  omega

theorem shOf_mem (x y : Nat) : shOf x y = 0 ∨ shOf x y = 4 ∨ shOf x y = 28 := by
  have hchar := shOf_char x y
  by_cases h1 : 128 ≤ xor8 x y
  · rw [if_pos h1] at hchar
    omega
  · rw [if_neg h1] at hchar
    by_cases h2 : 16 ≤ xor8 x y
    · rw [if_pos h2] at hchar
      omega
    · rw [if_neg h2] at hchar
      omega

theorem slice_ne_at_shOf {x y : Nat} (hx : x < 256) (hy : y < 256) (hne : x ≠ y) :
    sliceIndex x (shOf x y) ≠ sliceIndex y (shOf x y) := by
  have hnz := xor8_ne_zero hx hy hne
  have hchar := shOf_char x y
  by_cases h1 : 128 ≤ xor8 x y
  · rw [if_pos h1] at hchar
    rw [hchar, sliceIndex28 x hx, sliceIndex28 y hy]
    have := (xor8_hi_iff x y hx hy).1 h1
    have hx1 : x / 128 < 2 := by omega
    have hy1 : y / 128 < 2 := by omega
    split <;> split <;> omega
  · rw [if_neg h1] at hchar
    by_cases h2 : 16 ≤ xor8 x y
    · rw [if_pos h2] at hchar
      rw [hchar, sliceIndex4 x hx, sliceIndex4 y hy]
      exact xor8_mid_div_ne x y hx hy h2
    · rw [if_neg h2] at hchar
      rw [hchar, sliceIndex0 x hx, sliceIndex0 y hy]
      exact xor8_lo_mod_ne x y hx hy (by omega) hnz

theorem slice28_eq_of_shOf_lt {x y : Nat} (hx : x < 256) (hy : y < 256)
    (h : shOf x y < 28) : sliceIndex x 28 = sliceIndex y 28 := by
  have hchar := shOf_char x y
  by_cases hge : 128 ≤ xor8 x y
  · rw [if_pos hge] at hchar
    omega
  · have heq : x / 128 = y / 128 := by
      rcases eq_or_ne (x / 128) (y / 128) with he | hne2
      · exact he
      · exact absurd ((xor8_hi_iff x y hx hy).2 hne2) hge
    rw [sliceIndex28 x hx, sliceIndex28 y hy]
    have hx1 : x / 128 < 2 := by omega
    split <;> split <;> omega

theorem slice4_eq_of_shOf_lt {x y : Nat} (hx : x < 256) (hy : y < 256)
    (h : shOf x y < 4) : sliceIndex x 4 = sliceIndex y 4 := by
  have hchar := shOf_char x y
  by_cases h1 : 128 ≤ xor8 x y
  · rw [if_pos h1] at hchar
    omega
  · rw [if_neg h1] at hchar
    by_cases h2 : 16 ≤ xor8 x y
    · rw [if_pos h2] at hchar
      omega
    · have hlo : xor8 x y < 16 := by omega
      rw [sliceIndex4 x hx, sliceIndex4 y hy]
      exact (xor8_lo16_iff x y hx hy).1 hlo

/-! ## Heap lemmas and claims C2, C5, C6 -/

theorem sumSizes_nil : sumSizes [] = 0 := rfl

theorem sumSizes_cons (e : HeapEntry) (l : List HeapEntry) :
    sumSizes (e :: l) = e.size + sumSizes l := by
  simp [sumSizes]

theorem sumSizes_eraseIdx (l : List HeapEntry) (i : Nat) (h : i < l.length) :
    sumSizes (l.eraseIdx i) + (l.get ⟨i, h⟩).size = sumSizes l := by
  induction l generalizing i with
  | nil => simp at h
  | cons e rest ih =>
    cases i with
    | zero => simp [sumSizes_cons]; omega
    | succ j =>
      have hj : j < rest.length := by simpa using h
      have ihj := ih j hj
      have hget : (e :: rest).get ⟨j + 1, h⟩ = rest.get ⟨j, hj⟩ := rfl
      rw [List.eraseIdx_cons_succ, sumSizes_cons, hget, sumSizes_cons]
      omega

theorem runHOp_inv (st : Heap × List HeapEntry) (op : HOp) (S : Nat)
    (h1 : sumSizes st.2 + sumSizes st.1.entries = S)
    (h2 : st.1.size_used = sumSizes st.2) :
    sumSizes (runHOp st op).2 + sumSizes (runHOp st op).1.entries = S ∧
      (runHOp st op).1.size_used = sumSizes (runHOp st op).2 := by
  match op with
  | .alloc req =>
      cases hst : st.1.entries with
      | nil =>
          simp only [runHOp, vmcache_alloc, hst]
          exact ⟨by rw [← hst]; exact h1, h2⟩
      | cons he rest =>
          rw [hst, sumSizes_cons] at h1
          simp only [runHOp, vmcache_alloc, hst]
          split
          · rename_i hlt
            simp only [sumSizes_cons]
            constructor
            · omega
            · omega
          · rename_i hge
            simp only [sumSizes_cons]
            constructor
            · omega
            · omega
  | .free i =>
      by_cases h : i < st.2.length
      · simp only [runHOp, h, dif_pos, vmcache_free]
        have he := sumSizes_eraseIdx st.2 i h
        constructor
        · rw [sumSizes_cons]
          omega
        · omega
      · simp only [runHOp, h, dif_neg, not_false_iff]
        exact ⟨h1, h2⟩

theorem runHOps_inv (ops : List HOp) (st : Heap × List HeapEntry) (S : Nat)
    (h1 : sumSizes st.2 + sumSizes st.1.entries = S)
    (h2 : st.1.size_used = sumSizes st.2) :
    sumSizes (runHOps st ops).2 + sumSizes (runHOps st ops).1.entries = S ∧
      (runHOps st ops).1.size_used = sumSizes (runHOps st ops).2 := by
  induction ops generalizing st with
  | nil => exact ⟨h1, h2⟩
  | cons op rest ih =>
    have hstep := runHOp_inv st op S h1 h2
    exact ih (runHOp st op) hstep.1 hstep.2

/-- Claim C5: for every sequence of alloc and free operations starting from a
freshly created heap of initial size S, the sum of the sizes of entries held
by callers plus the sum of the sizes of entries on the free-stack equals S. -/
theorem claim_C5 (ops : List HOp) (addr S F : Nat) :
    sumSizes (runHOps (vmcache_heap_create addr S F, []) ops).2 +
      sumSizes (runHOps (vmcache_heap_create addr S F, []) ops).1.entries = S :=
  (runHOps_inv ops (vmcache_heap_create addr S F, []) S
    (by simp [vmcache_heap_create, sumSizes]) (by simp [vmcache_heap_create, sumSizes])).1

/-- Claim C6: after every sequence of alloc and free operations on a heap,
vmcache_get_heap_used_size returns exactly the sum of the sizes of the
entries returned by alloc and not yet freed. -/
theorem claim_C6 (ops : List HOp) (addr S F : Nat) :
    vmcache_get_heap_used_size (runHOps (vmcache_heap_create addr S F, []) ops).1 =
      sumSizes (runHOps (vmcache_heap_create addr S F, []) ops).2 :=
  (runHOps_inv ops (vmcache_heap_create addr S F, []) S
    (by simp [vmcache_heap_create, sumSizes]) (by simp [vmcache_heap_create, sumSizes])).2

/-- Claim C2, counterexample: on a fresh 256-byte heap with fragment size
256, alloc(300) returns the whole 256-byte entry, which is neither the empty
entry nor of size `ceil(300/256)*256 = 512`. -/
theorem claim_C2_counterexample :
    (vmcache_alloc (vmcache_heap_create 4096 256 256) 300).1.size = 256 ∧
    ALIGN_UP 300 256 = 512 ∧
    ¬((vmcache_alloc (vmcache_heap_create 4096 256 256) 300).1 = ⟨0, 0⟩ ∨
      (vmcache_alloc (vmcache_heap_create 4096 256 256) 300).1.size =
        ALIGN_UP 300 256) := by decide

/-- Claim C2, amended: vmcache_alloc either returns the empty entry with the
heap unchanged (exactly when the free-stack is empty), or pops the top entry
of the free-stack and returns an entry at its base whose size is the minimum
of the rounded request and the popped entry's size. -/
theorem claim_C2 (h : Heap) (req : Nat) :
    (h.entries = [] → vmcache_alloc h req = (⟨0, 0⟩, h)) ∧
    (∀ top rest, h.entries = top :: rest →
      (vmcache_alloc h req).1.ptr = top.ptr ∧
      (vmcache_alloc h req).1.size = min (ALIGN_UP req h.fragment_size) top.size) := by
  constructor
  · intro hnil
    simp [vmcache_alloc, hnil]
  · intro top rest htop
    simp only [vmcache_alloc, htop]
    split
    · rename_i hlt
      exact ⟨rfl, by simp; omega⟩
    · rename_i hge
      exact ⟨rfl, by simp; omega⟩

/-- witness for the amended C2 at a concrete heap -/
theorem claim_C2_witness :
    (vmcache_alloc (vmcache_heap_create 4096 1024 256) 300).1.ptr = 4096 ∧
    (vmcache_alloc (vmcache_heap_create 4096 1024 256) 300).1.size =
      min (ALIGN_UP 300 256) 1024 :=
  ⟨((claim_C2 (vmcache_heap_create 4096 1024 256) 300).2 ⟨4096, 1024⟩ [] rfl).1,
   ((claim_C2 (vmcache_heap_create 4096 1024 256) 300).2 ⟨4096, 1024⟩ [] rfl).2⟩

/-! ## Basic child-slot lemmas -/

theorem setChild_childAt_self (ch : List (Option CNode)) (i : Nat) :
    setChild ch i (childAt ch i) = ch := by
  induction ch generalizing i with
  | nil => simp [setChild]
  | cons x xs ih =>
    cases i with
    | zero => simp [setChild, childAt]
    | succ j =>
      rw [childAt, List.getD_cons_succ, setChild, List.set_cons_succ]
      have := ih j
      rw [childAt, setChild] at this
      rw [this]

/-! ## Claim C10: critnib_get does not modify the index -/

theorem getS_spec (key : List Nat) (t : Option CNode) :
    getS key t = (getRec key t, t) := by
  induction t using getS.induct key with
  | case1 => simp [getS, getRec]
  | case2 lk lv => simp [getS, getRec]
  | case3 ch b s hlen =>
    rw [getS, getRec]
    simp [hlen]
  | case4 ch b s hlen i ih =>
    rw [getS, getRec]
    simp only [hlen, if_neg, ite_false]
    rw [ih, setChild_childAt_self]

/-- Claim C10: critnib_get never modifies the index: threading the tree
through the descent returns it unchanged, together with the same result as
the pure lookup. -/
theorem claim_C10 (c : Critnib) (key : List Nat) :
    critnib_get_state c key = (critnib_get c key, c) := by
  cases c with
  | mk root =>
    rw [critnib_get_state, critnib_get, getS_spec]

/-! ## Claim C7: out-of-range byte offsets and key reads -/

theorem getT_fst (key : List Nat) (t : Option CNode) :
    (getT key t).1 = getRec key t := by
  induction t using getT.induct key with
  | case1 => simp [getT, getRec]
  | case2 lk lv hlen =>
    rw [getT, getRec]
    simp [hlen]
  | case3 lk lv hlen =>
    rw [getT, getRec]
    have hne : key ≠ lk := fun hc => hlen (by rw [hc])
    simp [hlen, hne]
  | case4 ch b s hlen =>
    rw [getT, getRec]
    simp [hlen]
  | case5 ch b s hlen ih =>
    rw [getT, getRec]
    simp only [hlen, ite_false, if_neg]
    exact ih

theorem removeT_eq_getT (key : List Nat) (t : Option CNode) :
    removeT key t = getT key t := by
  induction t using getT.induct key with
  | case1 => simp [removeT, getT]
  | case2 lk lv hlen =>
    rw [removeT, getT]
  | case3 lk lv hlen =>
    rw [removeT, getT]
  | case4 ch b s hlen =>
    rw [removeT, getT]
    simp [hlen]
  | case5 ch b s hlen ih =>
    rw [removeT, getT]
    simp only [hlen, ite_false, if_neg]
    rw [ih]

theorem removeRec_fst (key : List Nat) (t : Option CNode) :
    (removeRec key t).1 = getRec key t := by
  induction t using removeRec.induct key with
  | case1 => simp [removeRec, getRec]
  | case2 lv => simp [removeRec, getRec]
  | case3 lk lv hne =>
    rw [removeRec, getRec]
    simp [hne]
  | case4 ch b s hlen =>
    rw [removeRec, getRec]
    simp [hlen]
  | case5 ch b s hlen i h =>
    rw [removeRec, getRec]
    simp [hlen, h, getRec]
  | case6 ch b s hlen i lv ch1 hfm h =>
    rw [removeRec, getRec]
    simp [hlen, h, hfm, getRec]
  | case7 ch b s hlen i lv ch1 m hfm h =>
    rw [removeRec, getRec]
    simp [hlen, h, hfm, getRec]
  | case8 ch b s hlen i lv ch1 m1 m2 tl hfm h =>
    rw [removeRec, getRec]
    simp [hlen, h, hfm, getRec]
  | case9 ch b s hlen i lk lv h hne =>
    rw [removeRec, getRec]
    simp [hlen, h, hne, getRec]
  | case10 ch b s hlen i ch2 b2 s2 h snd hrec ih =>
    rw [removeRec, getRec]
    rw [h] at hrec ih
    simp [hlen, h, hrec, ← ih]
  | case11 ch b s hlen i ch2 b2 s2 h v t2 hrec ih =>
    rw [removeRec, getRec]
    rw [h] at hrec ih
    simp [hlen, h, hrec, ← ih]

theorem getT_reads (key : List Nat) (t : Option CNode) :
    ∀ i ∈ (getT key t).2, i < key.length := by
  induction t using getT.induct key with
  | case1 => simp [getT]
  | case2 lk lv hlen =>
    rw [getT]
    simp [hlen, List.mem_range]
  | case3 lk lv hlen =>
    rw [getT]
    simp [hlen]
  | case4 ch b s hlen =>
    rw [getT]
    simp [hlen]
  | case5 ch b s hlen ih =>
    rw [getT]
    simp only [hlen, ite_false, if_neg]
    intro i hi
    simp only [List.mem_cons] at hi
    rcases hi with hi | hi
    · omega
    · exact ih i hi

/-- Claim C7: reaching an internal node whose byte offset is at least the key
length makes critnib_get and critnib_remove miss immediately (remove leaves
the subtree unchanged), the instrumented descents compute the same results as
the plain ones, and neither descent ever reads a key index that is not below
the key length. -/
theorem claim_C7 (key : List Nat) :
    (∀ ch b s, key.length ≤ b →
       getRec key (some (.node ch b s)) = none ∧
       removeRec key (some (.node ch b s)) = (none, some (.node ch b s))) ∧
    (∀ t, (getT key t).1 = getRec key t ∧ (removeT key t).1 = (removeRec key t).1) ∧
    (∀ t, ∀ i ∈ (getT key t).2, i < key.length) ∧
    (∀ t, ∀ i ∈ (removeT key t).2, i < key.length) := by
  refine ⟨?_, ?_, ?_, ?_⟩
  · intro ch b s hlen
    constructor
    · rw [getRec]
      simp [hlen]
    · rw [removeRec]
      simp [hlen]
  · intro t
    refine ⟨getT_fst key t, ?_⟩
    rw [removeT_eq_getT, getT_fst, removeRec_fst]
  · intro t
    exact getT_reads key t
  · intro t
    rw [removeT_eq_getT]
    exact getT_reads key t

/-- witness for C7 at a concrete node, tree and read index -/
theorem claim_C7_witness :
    (getRec [5] (some (.node [] 1 0)) = none ∧
     removeRec [5] (some (.node [] 1 0)) = (none, some (.node [] 1 0))) ∧
    0 < [5].length ∧ 0 < [5].length :=
  ⟨(claim_C7 [5]).1 [] 1 0 (by norm_num),
   (claim_C7 [5]).2.2.1 (some (.leaf [5] 3)) 0 (by simp [getT]),
   (claim_C7 [5]).2.2.2 (some (.leaf [5] 3)) 0 (by simp [removeT, getT])⟩

/-! ## Claim C8, counterexample -/

/-- Claim C8, counterexample: inserting the single-byte keys 0 and 128 (which
differ exactly in the high bit of byte 0) creates an internal node whose bit
shift is 28, not 0 or 4: `util_mssb_index((uint32_t)at)` sign-extends the
negative `char` xor and returns 31, and `31 & ~3 = 28`. -/
theorem claim_C8_counterexample :
    allBits ((critnib_set (critnib_set critnib_new [0] 1).2 [128] 2).2).root = [28] ∧
    ¬(28 = 0 ∨ 28 = 4) := by
  constructor
  · have h1 : (critnib_set critnib_new [0] 1).2 = ⟨some (.leaf [0] 1)⟩ := rfl
    rw [h1]
    have hsh : shOf 0 128 = 28 := by decide
    have hs0 : sliceIndex 0 28 = 0 := by decide
    have hs15 : sliceIndex 128 28 = 15 := by decide
    have hfw : find_witness [128] (some (.leaf [0] 1)) = some [0] := by
      simp [find_witness]
    have hfd : firstDiff [0] [128] = some 0 := by norm_num [firstDiff]
    have hsp : splice [128] 2 [0] 0 28 (some (.leaf [0] 1)) =
        some (mkNewNode (some (.leaf [0] 1)) [128] 2 [0] 0 28) := by
      simp [splice]
    simp only [critnib_set, hfw, hfd]
    rw [show shOf (byteAt [0] 0) (byteAt [128] 0) = 28 from hsh]
    simp only [hsp, mkNewNode, byteAt, hs0, hs15, setChild, emptyChildren]
    simp [allBits, allBitsN, allBitsL, List.replicate]
  · decide

/-! ## Child-slot and leaves lemmas -/

theorem length_setChild (ch : List (Option CNode)) (i : Nat) (t : Option CNode) :
    (setChild ch i t).length = ch.length := by
  simp [setChild]

theorem childAt_set_self {ch : List (Option CNode)} {i : Nat} (t : Option CNode)
    (h : i < ch.length) : childAt (setChild ch i t) i = t := by
  induction ch generalizing i with
  | nil => simp at h
  | cons x xs ih =>
    cases i with
    | zero => simp [setChild, childAt]
    | succ j =>
      have hj : j < xs.length := by simpa using h
      have := ih hj
      simp only [setChild, childAt, List.set_cons_succ, List.getD_cons_succ] at this ⊢
      exact this

theorem childAt_set_ne {i j : Nat} (ch : List (Option CNode)) (t : Option CNode)
    (h : i ≠ j) : childAt (setChild ch i t) j = childAt ch j := by
  induction ch generalizing i j with
  | nil => simp [setChild]
  | cons x xs ih =>
    cases i with
    | zero =>
      cases j with
      | zero => exact absurd rfl h
      | succ j2 => simp [setChild, childAt]
    | succ i2 =>
      cases j with
      | zero => simp [setChild, childAt]
      | succ j2 =>
        have := ih (i := i2) (j := j2) (fun hc => h (by rw [hc]))
        simp only [setChild, childAt, List.set_cons_succ, List.getD_cons_succ] at this ⊢
        exact this

theorem childAt_lt_length {ch : List (Option CNode)} {j : Nat} {m : CNode}
    (h : childAt ch j = some m) : j < ch.length := by
  by_contra hc
  rw [childAt, List.getD_eq_default] at h
  · cases h
  · omega

theorem childAt_replicate_none (n i : Nat) :
    childAt (List.replicate n none) i = none := by
  rw [childAt]
  by_cases h : i < n
  · rw [List.getD_eq_getElem _ _ (by simpa using h)]
    simp
  · rw [List.getD_eq_default]
    simpa using h

theorem childAt_mem {ch : List (Option CNode)} {j : Nat} {m : CNode}
    (h : childAt ch j = some m) : some m ∈ ch := by
  have hlt := childAt_lt_length h
  rw [childAt, List.getD_eq_getElem _ _ hlt] at h
  rw [← h]
  exact List.getElem_mem hlt

theorem mem_childAt {ch : List (Option CNode)} {m : CNode} (h : some m ∈ ch) :
    ∃ j, childAt ch j = some m := by
  induction ch with
  | nil => simp at h
  | cons x xs ih =>
    rcases List.mem_cons.1 h with h1 | h1
    · exact ⟨0, by simp [childAt, h1.symm]⟩
    · obtain ⟨j, hj⟩ := ih h1
      exact ⟨j + 1, by simpa [childAt] using hj⟩

theorem leaves_none : leaves none = [] := rfl

theorem leaves_some (n : CNode) : leaves (some n) = leavesN n := rfl

theorem leavesL_cons (oc : Option CNode) (rest : List (Option CNode)) :
    leavesL (oc :: rest) = leaves oc ++ leavesL rest := by
  cases oc with
  | none => simp [leavesL, leaves]
  | some m => simp [leavesL, leaves]

theorem mem_leavesL_iff {p : List Nat × Nat} {ch : List (Option CNode)} :
    p ∈ leavesL ch ↔ ∃ j m, childAt ch j = some m ∧ p ∈ leavesN m := by
  induction ch with
  | nil =>
    simp [leavesL, childAt]
  | cons oc rest ih =>
    rw [leavesL_cons, List.mem_append, ih]
    constructor
    · rintro (h1 | ⟨j, m, hj, hm⟩)
      · cases oc with
        | none => simp [leaves] at h1
        | some m0 =>
          exact ⟨0, m0, by simp [childAt], by simpa [leaves] using h1⟩
      · exact ⟨j + 1, m, by simpa [childAt] using hj, hm⟩
    · rintro ⟨j, m, hj, hm⟩
      cases j with
      | zero =>
        left
        simp only [childAt, List.getD_cons_zero] at hj
        rw [hj]
        simpa [leaves] using hm
      | succ j2 =>
        right
        exact ⟨j2, m, by simpa [childAt] using hj, hm⟩

theorem leavesL_set_perm (ch : List (Option CNode)) (i : Nat) (t : Option CNode)
    (h : i < ch.length) :
    (leavesL (setChild ch i t) ++ leaves (childAt ch i)).Perm
      (leavesL ch ++ leaves t) := by
  induction ch generalizing i with
  | nil => simp at h
  | cons oc rest ih =>
    cases i with
    | zero =>
      simp only [setChild, List.set_cons_zero, childAt, List.getD_cons_zero]
      rw [leavesL_cons, leavesL_cons, ← Multiset.coe_eq_coe]
      simp only [← Multiset.coe_add]
      abel
    | succ j =>
      have hj : j < rest.length := by simpa using h
      have hp := ih j hj
      simp only [setChild, List.set_cons_succ, childAt, List.getD_cons_succ] at hp ⊢
      rw [leavesL_cons, leavesL_cons]
      rw [← Multiset.coe_eq_coe] at hp ⊢
      simp only [← Multiset.coe_add] at hp ⊢
      rw [add_assoc, add_assoc, hp]

theorem leavesL_replicate_none (n : Nat) : leavesL (List.replicate n none) = [] := by
  induction n with
  | zero => simp [List.replicate, leavesL]
  | succ m ih => simpa [List.replicate, leavesL] using ih

/-! ## filterMap lemmas for the nonempty-children counts -/

theorem length_filterMap_set_some_ge (ch : List (Option CNode)) (i : Nat) (x : CNode) :
    (ch.filterMap id).length ≤ ((setChild ch i (some x)).filterMap id).length := by
  induction ch generalizing i with
  | nil => simp [setChild]
  | cons oc rest ih =>
    cases i with
    | zero =>
      cases oc <;> simp [setChild, List.filterMap_cons]
    | succ j =>
      have := ih j
      cases oc <;> simpa [setChild, List.filterMap_cons] using this

theorem length_filterMap_set_none_of_some {ch : List (Option CNode)} {i : Nat} {m : CNode}
    (h : childAt ch i = some m) :
    ((setChild ch i none).filterMap id).length + 1 = (ch.filterMap id).length := by
  induction ch generalizing i with
  | nil => simp [childAt] at h
  | cons oc rest ih =>
    cases i with
    | zero =>
      simp only [childAt, List.getD_cons_zero] at h
      subst h
      simp [setChild, List.filterMap_cons]
    | succ j =>
      have hj : childAt rest j = some m := by simpa [childAt] using h
      have := ih hj
      cases oc <;> simpa [setChild, List.filterMap_cons] using this

theorem mem_filterMap_id_iff {ch : List (Option CNode)} {m : CNode} :
    m ∈ ch.filterMap id ↔ some m ∈ ch := by
  rw [List.mem_filterMap]
  constructor
  · rintro ⟨a, ha, hm⟩
    cases a with
    | none => simp [id] at hm
    | some a2 =>
      simp only [id] at hm
      cases hm
      exact ha
  · intro h
    exact ⟨some m, h, rfl⟩

theorem leavesL_of_filterMap_nil {ch : List (Option CNode)}
    (h : ch.filterMap id = []) : leavesL ch = [] := by
  induction ch with
  | nil => simp [leavesL]
  | cons oc rest ih =>
    cases oc with
    | none =>
      simp only [List.filterMap_cons] at h
      rw [leavesL_cons]
      simp [leaves, ih h]
    | some m => simp [List.filterMap_cons] at h

theorem leavesL_of_filterMap_singleton {ch : List (Option CNode)} {m : CNode}
    (h : ch.filterMap id = [m]) : leavesL ch = leavesN m := by
  induction ch with
  | nil => simp [List.filterMap_nil] at h
  | cons oc rest ih =>
    cases oc with
    | none =>
      simp only [List.filterMap_cons] at h
      rw [leavesL_cons]
      simp [leaves, ih h]
    | some m2 =>
      simp only [List.filterMap_cons, id] at h
      have hm2 : m2 = m := by
        have := List.head_eq_of_cons_eq h
        exact this
      have htail : rest.filterMap id = [] := List.tail_eq_of_cons_eq h
      rw [leavesL_cons, hm2]
      simp [leaves, leavesL_of_filterMap_nil htail]

theorem mem_setChild_none {ch : List (Option CNode)} {i : Nat} {x : Option CNode}
    (h : x ∈ setChild ch i none) : x ∈ ch ∨ x = none := by
  induction ch generalizing i with
  | nil => simp [setChild] at h
  | cons oc rest ih =>
    cases i with
    | zero =>
      simp only [setChild, List.set_cons_zero, List.mem_cons] at h
      rcases h with h | h
      · right; exact h
      · left; exact List.mem_cons_of_mem _ h
    | succ j =>
      simp only [setChild, List.set_cons_succ, List.mem_cons] at h
      rcases h with h | h
      · left; simp [h]
      · rcases ih h with h2 | h2
        · left; exact List.mem_cons_of_mem _ h2
        · right; exact h2

/-! ## byteAt, take and firstDiff lemmas -/

theorem byteAt_mem {k : List Nat} {b : Nat} (h : b < k.length) : byteAt k b ∈ k := by
  induction k generalizing b with
  | nil => simp at h
  | cons x xs ih =>
    cases b with
    | zero => simp [byteAt]
    | succ b2 =>
      have : b2 < xs.length := by simpa using h
      simp [byteAt]
      right
      exact ih this

theorem byteAt_eq_of_take_eq {k1 k2 : List Nat} {n d : Nat}
    (h : k1.take n = k2.take n) (hd : d < n) : byteAt k1 d = byteAt k2 d := by
  induction d generalizing k1 k2 n with
  | zero =>
    cases n with
    | zero => omega
    | succ n2 =>
      cases k1 with
      | nil =>
        cases k2 with
        | nil => rfl
        | cons y ys => simp [List.take] at h
      | cons x xs =>
        cases k2 with
        | nil => simp [List.take] at h
        | cons y ys =>
          simp only [List.take, List.cons.injEq] at h
          simp [byteAt, h.1]
  | succ d2 ih =>
    cases n with
    | zero => omega
    | succ n2 =>
      cases k1 with
      | nil =>
        cases k2 with
        | nil => rfl
        | cons y ys => simp [List.take] at h
      | cons x xs =>
        cases k2 with
        | nil => simp [List.take] at h
        | cons y ys =>
          simp only [List.take, List.cons.injEq] at h
          simp only [byteAt]
          exact ih h.2 (by omega)

theorem take_eq_mono {k1 k2 : List Nat} {n m : Nat}
    (h : k1.take n = k2.take n) (hm : m ≤ n) : k1.take m = k2.take m := by
  have h1 : k1.take m = (k1.take n).take m := by
    rw [List.take_take]
    congr 1
    omega
  have h2 : k2.take m = (k2.take n).take m := by
    rw [List.take_take]
    congr 1
    omega
  rw [h1, h2, h]

theorem firstDiff_nil_left (b : List Nat) : firstDiff [] b = none := by
  cases b <;> rfl

theorem firstDiff_nil_right (a : List Nat) : firstDiff a [] = none := by
  cases a <;> rfl

theorem firstDiff_cons_eq (x : Nat) (xs ys : List Nat) :
    firstDiff (x :: xs) (x :: ys) = (firstDiff xs ys).map (· + 1) := by
  rw [firstDiff]
  simp

theorem firstDiff_cons_ne {x y : Nat} (h : x ≠ y) (xs ys : List Nat) :
    firstDiff (x :: xs) (y :: ys) = some 0 := by
  rw [firstDiff]
  simp [h]

theorem firstDiff_none_iff (a b : List Nat) :
    firstDiff a b = none ↔ a <+: b ∨ b <+: a := by
  induction a generalizing b with
  | nil =>
    simp [firstDiff_nil_left]
  | cons x xs ih =>
    cases b with
    | nil =>
      simp [firstDiff_nil_right]
    | cons y ys =>
      by_cases hxy : x = y
      · subst hxy
        rw [firstDiff_cons_eq]
        simp only [Option.map_eq_none']
        rw [ih ys]
        constructor
        · rintro (h | h)
          · exact Or.inl (List.cons_prefix_cons.2 ⟨rfl, h⟩)
          · exact Or.inr (List.cons_prefix_cons.2 ⟨rfl, h⟩)
        · rintro (h | h)
          · left
            exact (List.cons_prefix_cons.1 h).2
          · right
            exact (List.cons_prefix_cons.1 h).2
      · rw [firstDiff_cons_ne hxy]
        constructor
        · intro h
          cases h
        · rintro (h | h)
          · exact absurd (List.cons_prefix_cons.1 h).1 hxy
          · exact absurd (List.cons_prefix_cons.1 h).1 (fun hc => hxy hc.symm)

theorem firstDiff_some_spec {a b : List Nat} {d : Nat} (h : firstDiff a b = some d) :
    d < a.length ∧ d < b.length ∧ a.take d = b.take d ∧ byteAt a d ≠ byteAt b d := by
  induction a generalizing b d with
  | nil => simp [firstDiff_nil_left] at h
  | cons x xs ih =>
    cases b with
    | nil => simp [firstDiff_nil_right] at h
    | cons y ys =>
      by_cases hxy : x = y
      · subst hxy
        rw [firstDiff_cons_eq] at h
        simp only [Option.map_eq_some'] at h
        obtain ⟨d2, hd2, hdd⟩ := h
        obtain ⟨h1, h2, h3, h4⟩ := ih hd2
        subst hdd
        refine ⟨by simpa using h1, by simpa using h2, ?_, by simpa [byteAt] using h4⟩
        simp [List.take, h3]
      · rw [firstDiff_cons_ne hxy] at h
        have hd0 : d = 0 := by
          injection h with h2
          exact h2.symm
        subst hd0
        exact ⟨by simp, by simp, by simp, by simpa [byteAt] using hxy⟩

/-! ## AgreeUpTo lemmas -/

theorem agreeUpToB_iff (b s : Nat) (k1 k2 : List Nat) :
    agreeUpToB b s k1 k2 = true ↔ AgreeUpTo b s k1 k2 := by
  rw [agreeUpToB, AgreeUpTo]
  simp only [Bool.and_eq_true, beq_iff_eq]
  constructor
  · rintro ⟨⟨h1, h2⟩, h3⟩
    refine ⟨h1, ?_, ?_⟩
    · intro hs
      rw [if_pos hs] at h2
      simpa using h2
    · intro hs
      rw [if_pos hs] at h3
      simpa using h3
  · rintro ⟨h1, h2, h3⟩
    refine ⟨⟨h1, ?_⟩, ?_⟩
    · by_cases hs : s < 28
      · rw [if_pos hs]
        simpa using h2 hs
      · rw [if_neg hs]
    · by_cases hs : s < 4
      · rw [if_pos hs]
        simpa using h3 hs
      · rw [if_neg hs]

theorem agree_refl (b s : Nat) (k : List Nat) : AgreeUpTo b s k k :=
  ⟨rfl, fun _ => rfl, fun _ => rfl⟩

theorem agree_symm {b s : Nat} {k1 k2 : List Nat} (h : AgreeUpTo b s k1 k2) :
    AgreeUpTo b s k2 k1 :=
  ⟨h.1.symm, fun hs => (h.2.1 hs).symm, fun hs => (h.2.2 hs).symm⟩

theorem agree_trans {b s : Nat} {k1 k2 k3 : List Nat} (h1 : AgreeUpTo b s k1 k2)
    (h2 : AgreeUpTo b s k2 k3) : AgreeUpTo b s k1 k3 :=
  ⟨h1.1.trans h2.1, fun hs => (h1.2.1 hs).trans (h2.2.1 hs),
   fun hs => (h1.2.2 hs).trans (h2.2.2 hs)⟩

theorem agree_nib_eq_of_lt {b s : Nat} {k1 k2 : List Nat} (h : AgreeUpTo b s k1 k2)
    {b2 : Nat} (hb : b2 < b) (s2 : Nat) : nibAt k1 b2 s2 = nibAt k2 b2 s2 := by
  rw [nibAt, nibAt, byteAt_eq_of_take_eq h.1 hb]

theorem agree_mono {b s b2 s2 : Nat} {k1 k2 : List Nat} (h : AgreeUpTo b s k1 k2)
    (hc : b2 < b ∨ (b2 = b ∧ s ≤ s2)) : AgreeUpTo b2 s2 k1 k2 := by
  rcases hc with hc | ⟨hc1, hc2⟩
  · refine ⟨take_eq_mono h.1 (by omega), ?_, ?_⟩
    · intro _
      exact agree_nib_eq_of_lt h hc 28
    · intro _
      exact agree_nib_eq_of_lt h hc 4
  · subst hc1
    exact ⟨h.1, fun hs => h.2.1 (by omega), fun hs => h.2.2 (by omega)⟩

theorem nib_eq_of_agree_coordLt {b2 s2 dff sh : Nat} {k1 k2 : List Nat}
    (h : AgreeUpTo b2 s2 k1 k2) (hc : coordLt dff sh b2 s2)
    (hsh : sh = 0 ∨ sh = 4 ∨ sh = 28) : nibAt k1 dff sh = nibAt k2 dff sh := by
  rcases hc with hc | ⟨hc1, hc2⟩
  · exact agree_nib_eq_of_lt h hc sh
  · subst hc1
    rcases hsh with h0 | h4 | h28
    · omega
    · subst h4
      exact h.2.2 (by omega)
    · subst h28
      exact h.2.1 (by omega)

/-! ## Invariant accessor lemmas -/

/-- propositional content of one `invCh` slot check -/
def ChildOk (b s i : Nat) (m : CNode) : Prop :=
  invN m = true ∧
  (∀ p ∈ leavesN m, b < p.1.length ∧ nibAt p.1 b s = i) ∧
  (∀ ch2 b2 s2, m = .node ch2 b2 s2 → b < b2 ∨ (b = b2 ∧ s2 < s))

theorem invCh_iff (ch : List (Option CNode)) (b s i0 : Nat) :
    invCh ch b s i0 = true ↔
      ∀ j m, childAt ch j = some m → ChildOk b s (i0 + j) m := by
  induction ch generalizing i0 with
  | nil =>
    rw [invCh]
    simp only [true_iff]
    intro j m hj
    simp [childAt] at hj
  | cons oc rest ih =>
    cases oc with
    | none =>
      rw [invCh, ih (i0 + 1)]
      constructor
      · intro h j m hj
        cases j with
        | zero => simp [childAt] at hj
        | succ j2 =>
          have := h j2 m (by simpa [childAt] using hj)
          have he : i0 + 1 + j2 = i0 + (j2 + 1) := by omega
          rwa [he] at this
      · intro h j m hj
        have := h (j + 1) m (by simpa [childAt] using hj)
        have he : i0 + (j + 1) = i0 + 1 + j := by omega
        rwa [he] at this
    | some m0 =>
      simp only [invCh, Bool.and_eq_true, ih (i0 + 1), List.all_eq_true,
        decide_eq_true_iff, beq_iff_eq]
      constructor
      · rintro ⟨⟨⟨hinv, hlv⟩, hco⟩, hrest⟩ j m hj
        cases j with
        | zero =>
          simp only [childAt, List.getD_cons_zero] at hj
          cases hj
          refine ⟨hinv, ?_, ?_⟩
          · intro p hp
            have := hlv p hp
            simpa using this
          · intro ch2 b2 s2 hm
            subst hm
            simpa using hco
        | succ j2 =>
          have := hrest j2 m (by simpa [childAt] using hj)
          have he : i0 + 1 + j2 = i0 + (j2 + 1) := by omega
          rwa [he] at this
      · intro h
        have h0 := h 0 m0 (by simp [childAt])
        refine ⟨⟨⟨h0.1, ?_⟩, ?_⟩, ?_⟩
        · intro p hp
          have := h0.2.1 p hp
          simpa using this
        · rcases hm0 : m0 with _ | ⟨ch2, b2, s2⟩
          · rfl
          · have := h0.2.2 ch2 b2 s2 hm0
            simpa using this
        · intro j m hj
          have := h (j + 1) m (by simpa [childAt] using hj)
          have he : i0 + (j + 1) = i0 + 1 + j := by omega
          rwa [he] at this

theorem invN_node_iff (ch : List (Option CNode)) (b s : Nat) :
    invN (.node ch b s) = true ↔
      ch.length = 16 ∧ (s = 0 ∨ s = 4 ∨ s = 28) ∧
      2 ≤ (ch.filterMap id).length ∧
      (∀ j m, childAt ch j = some m → ChildOk b s j m) ∧
      (∀ p1 ∈ leavesL ch, ∀ p2 ∈ leavesL ch, AgreeUpTo b s p1.1 p2.1) := by
  rw [invN]
  simp only [Bool.and_eq_true, Bool.or_eq_true, beq_iff_eq, decide_eq_true_iff,
    List.all_eq_true, invCh_iff, agreeUpToB_iff]
  constructor
  · rintro ⟨⟨⟨⟨hlen, hs⟩, hcount⟩, hch⟩, hagree⟩
    refine ⟨hlen, or_assoc.mp hs, hcount, ?_, ?_⟩
    · intro j m hj
      have := hch j m hj
      simpa using this
    · intro p1 hp1 p2 hp2
      have := hagree p1.1 (List.mem_map_of_mem Prod.fst hp1)
      exact this p2.1 (List.mem_map_of_mem Prod.fst hp2)
  · rintro ⟨hlen, hs, hcount, hch, hagree⟩
    refine ⟨⟨⟨⟨hlen, or_assoc.mpr hs⟩, hcount⟩, ?_⟩, ?_⟩
    · intro j m hj
      have := hch j m hj
      simpa using this
    · intro k1 hk1 k2 hk2
      rw [List.mem_map] at hk1 hk2
      obtain ⟨p1, hp1, he1⟩ := hk1
      obtain ⟨p2, hp2, he2⟩ := hk2
      rw [← he1, ← he2]
      exact hagree p1 hp1 p2 hp2

theorem invN_leaf_iff (k : List Nat) (v : Nat) :
    invN (.leaf k v) = true ↔ ∀ x ∈ k, x < 256 := by
  rw [invN]
  simp [List.all_eq_true]

theorem Inv_none : Inv none = true := rfl

theorem Inv_some (n : CNode) : Inv (some n) = invN n := rfl

/-- strong induction on the size of a tree -/
theorem cnode_strong_ind (P : CNode → Prop)
    (h : ∀ n, (∀ m : CNode, sizeOf m < sizeOf n → P m) → P n) : ∀ n, P n := by
  have hk : ∀ k (n : CNode), sizeOf n < k → P n := by
    intro k
    induction k with
    | zero =>
      intro n h2
      omega
    | succ k2 ih =>
      intro n h2
      exact h n (fun m hm => ih m (by omega))
  exact fun n => hk (sizeOf n + 1) n (by omega)

theorem sizeOf_of_mem_child {ch : List (Option CNode)} {m : CNode} {b s : Nat}
    (h : some m ∈ ch) : sizeOf m < sizeOf (CNode.node ch b s) := by
  have := List.sizeOf_lt_of_mem h
  simp only [CNode.node.sizeOf_spec, Option.some.sizeOf_spec] at this ⊢
  omega

/-! ## Semantic lemmas about the descents -/

theorem firstChild_mem {ch : List (Option CNode)} {m : CNode}
    (h : firstChild ch = some m) : some m ∈ ch := by
  induction ch with
  | nil => simp [firstChild] at h
  | cons oc rest ih =>
    cases oc with
    | none =>
      rw [firstChild] at h
      exact List.mem_cons_of_mem _ (ih h)
    | some m2 =>
      rw [firstChild] at h
      cases h
      exact List.mem_cons_self _ _

theorem firstChild_isSome {ch : List (Option CNode)} (h : ch.filterMap id ≠ []) :
    ∃ m, firstChild ch = some m := by
  induction ch with
  | nil => simp [List.filterMap_nil] at h
  | cons oc rest ih =>
    cases oc with
    | none =>
      rw [firstChild]
      apply ih
      simpa [List.filterMap_cons] using h
    | some m2 => exact ⟨m2, rfl⟩

theorem leavesN_node (ch : List (Option CNode)) (b s : Nat) :
    leavesN (.node ch b s) = leavesL ch := by
  rw [leavesN]

theorem leavesN_leaf (k : List Nat) (v : Nat) : leavesN (.leaf k v) = [(k, v)] := by
  rw [leavesN]

theorem any_leaf_mem : ∀ (t : Option CNode) (p : List Nat × Nat),
    any_leaf t = some p → p ∈ leaves t := by
  intro t
  induction t using any_leaf.induct with
  | case1 =>
    intro p h
    simp [any_leaf] at h
  | case2 k v =>
    intro p h
    rw [any_leaf] at h
    cases h
    simp [leaves, leavesN_leaf]
  | case3 ch b s ih =>
    intro p h
    rw [any_leaf] at h
    have hp := ih p h
    cases hfc : firstChild ch with
    | none =>
      rw [hfc] at hp
      simp [leaves] at hp
    | some m =>
      rw [hfc] at hp
      simp only [leaves] at hp
      obtain ⟨j, hj⟩ := mem_childAt (firstChild_mem hfc)
      rw [leaves_some, leavesN_node, mem_leavesL_iff]
      exact ⟨j, m, hj, hp⟩

theorem any_leaf_isSome : ∀ n : CNode, invN n = true → (any_leaf (some n)).isSome := by
  apply cnode_strong_ind
  intro n ih hinv
  cases n with
  | leaf k v => rw [any_leaf]; rfl
  | node ch b s =>
    obtain ⟨hlen, hs, hcount, hch, hagree⟩ := (invN_node_iff ch b s).1 hinv
    have hne : ch.filterMap id ≠ [] := by
      intro hc
      rw [hc] at hcount
      simp at hcount
    obtain ⟨m, hm⟩ := firstChild_isSome hne
    obtain ⟨j, hj⟩ := mem_childAt (firstChild_mem hm)
    have hinvm : invN m = true := (hch j m hj).1
    have hsz : sizeOf m < sizeOf (CNode.node ch b s) :=
      sizeOf_of_mem_child (firstChild_mem hm)
    have := ih m hsz hinvm
    rw [any_leaf, hm]
    exact this

theorem leaves_valid : ∀ n : CNode, invN n = true →
    ∀ p ∈ leavesN n, ∀ x ∈ p.1, x < 256 := by
  apply cnode_strong_ind
  intro n ih hinv
  cases n with
  | leaf k v =>
    intro p hp
    rw [leavesN_leaf] at hp
    simp only [List.mem_singleton] at hp
    subst hp
    exact (invN_leaf_iff k v).1 hinv
  | node ch b s =>
    intro p hp
    rw [leavesN_node, mem_leavesL_iff] at hp
    obtain ⟨j, m, hj, hpm⟩ := hp
    obtain ⟨hlen, hs, hcount, hch, hagree⟩ := (invN_node_iff ch b s).1 hinv
    have hinvm : invN m = true := (hch j m hj).1
    exact ih m (sizeOf_of_mem_child (childAt_mem hj)) hinvm p hpm

theorem get_spec : ∀ n : CNode, invN n = true →
    ∀ k v, (k, v) ∈ leavesN n → getRec k (some n) = some v := by
  apply cnode_strong_ind
  intro n ih hinv k v hmem
  cases n with
  | leaf lk lv =>
    rw [leavesN_leaf] at hmem
    simp only [List.mem_singleton, Prod.mk.injEq] at hmem
    rw [getRec, if_pos hmem.1]
    rw [hmem.2]
  | node ch b s =>
    rw [leavesN_node, mem_leavesL_iff] at hmem
    obtain ⟨j, m, hj, hpm⟩ := hmem
    obtain ⟨hlen, hs, hcount, hch, hagree⟩ := (invN_node_iff ch b s).1 hinv
    obtain ⟨hinvm, hleaves, hcoord⟩ := hch j m hj
    have hkb : b < k.length ∧ nibAt k b s = j := by
      have := hleaves (k, v) hpm
      simpa using this
    rw [getRec, if_neg (by omega)]
    have hslice : sliceIndex (byteAt k b) s = j := hkb.2
    rw [hslice, hj]
    exact ih m (sizeOf_of_mem_child (childAt_mem hj)) hinvm k v hpm

theorem get_mem (key : List Nat) : ∀ t : Option CNode, ∀ v,
    getRec key t = some v → (key, v) ∈ leaves t := by
  intro t
  induction t using getRec.induct key with
  | case1 =>
    intro v h
    simp [getRec] at h
  | case2 lv =>
    intro v h
    rw [getRec, if_pos rfl] at h
    cases h
    rw [leaves_some, leavesN_leaf]
    simp
  | case3 lk lv hne =>
    intro v h
    rw [getRec, if_neg hne] at h
    cases h
  | case4 ch b s hlen =>
    intro v h
    rw [getRec, if_pos hlen] at h
    cases h
  | case5 ch b s hlen ih =>
    intro v h
    rw [getRec, if_neg hlen] at h
    have := ih v h
    cases hc : childAt ch (sliceIndex (byteAt key b) s) with
    | none =>
      rw [hc] at this
      simp [leaves] at this
    | some m =>
      rw [hc] at this
      rw [leaves_some, leavesN_node, mem_leavesL_iff]
      exact ⟨_, m, hc, by simpa [leaves] using this⟩

theorem find_witness_mem (key : List Nat) : ∀ t : Option CNode, ∀ nk,
    find_witness key t = some nk → ∃ v, (nk, v) ∈ leaves t := by
  intro t
  induction t using find_witness.induct key with
  | case1 =>
    intro nk h
    simp [find_witness] at h
  | case2 lk lv =>
    intro nk h
    rw [find_witness] at h
    cases h
    exact ⟨lv, by simp [leaves, leavesN_leaf]⟩
  | case3 ch b s hblt hsome ih =>
    intro nk h
    rw [find_witness, if_pos hblt, if_pos hsome] at h
    obtain ⟨v, hv⟩ := ih nk h
    obtain ⟨m, hm⟩ := Option.isSome_iff_exists.1 hsome
    rw [hm] at hv
    refine ⟨v, ?_⟩
    rw [leaves_some, leavesN_node, mem_leavesL_iff]
    exact ⟨_, m, hm, by simpa [leaves] using hv⟩
  | case4 ch b s hblt hnone =>
    intro nk h
    rw [find_witness, if_pos hblt, if_neg hnone] at h
    rw [Option.map_eq_some'] at h
    obtain ⟨p, hp, he⟩ := h
    exact ⟨p.2, by rw [← he]; exact any_leaf_mem _ p hp⟩
  | case5 ch b s hble =>
    intro nk h
    rw [find_witness, if_neg hble] at h
    rw [Option.map_eq_some'] at h
    obtain ⟨p, hp, he⟩ := h
    exact ⟨p.2, by rw [← he]; exact any_leaf_mem _ p hp⟩

theorem find_witness_isSome (key : List Nat) : ∀ n : CNode, invN n = true →
    (find_witness key (some n)).isSome := by
  apply cnode_strong_ind
  intro n ih hinv
  cases n with
  | leaf lk lv => rw [find_witness]; rfl
  | node ch b s =>
    by_cases hb : b < key.length
    · cases hc : childAt ch (sliceIndex (byteAt key b) s) with
      | none =>
        rw [find_witness, if_pos hb, if_neg (by simp [hc])]
        obtain ⟨p, hp⟩ := Option.isSome_iff_exists.1 (any_leaf_isSome (.node ch b s) hinv)
        rw [hp]
        rfl
      | some nn =>
        rw [find_witness, if_pos hb, if_pos (by simp [hc]), hc]
        obtain ⟨hlen, hs, hcount, hch, hagree⟩ := (invN_node_iff ch b s).1 hinv
        have hinvnn : invN nn = true := (hch _ nn hc).1
        exact ih nn (sizeOf_of_mem_child (childAt_mem hc)) hinvnn
    · rw [find_witness, if_neg hb]
      obtain ⟨p, hp⟩ := Option.isSome_iff_exists.1 (any_leaf_isSome (.node ch b s) hinv)
      rw [hp]
      rfl

/-! ## The splice of critnib_set preserves the invariant -/

theorem splice_isSome (key : List Nat) (v : Nat) (nkkey : List Nat) (diff sh : Nat)
    (t : Option CNode) : ∃ m, splice key v nkkey diff sh t = some m := by
  cases t with
  | none => exact ⟨_, by rw [splice]⟩
  | some n =>
    cases n with
    | leaf lk lv => exact ⟨_, by rw [splice]⟩
    | node ch b s =>
      rw [splice]
      by_cases hg : b < diff ∨ (b = diff ∧ sh ≤ s)
      · rw [if_pos hg]
        exact ⟨_, rfl⟩
      · rw [if_neg hg]
        exact ⟨_, rfl⟩

theorem emptyChildren_length : emptyChildren.length = 16 := by
  simp [emptyChildren]

theorem filterMap_replicate_none (n : Nat) :
    ((List.replicate n (none : Option CNode)).filterMap id) = [] := by
  induction n with
  | zero => simp
  | succ m ih => simpa [List.replicate, List.filterMap_cons] using ih

theorem length_filterMap_set_some_of_none {ch : List (Option CNode)} {i : Nat}
    (h : childAt ch i = none) (hlt : i < ch.length) (x : CNode) :
    ((setChild ch i (some x)).filterMap id).length = (ch.filterMap id).length + 1 := by
  induction ch generalizing i with
  | nil => simp at hlt
  | cons oc rest ih =>
    cases i with
    | zero =>
      simp only [childAt, List.getD_cons_zero] at h
      subst h
      simp [setChild, List.filterMap_cons]
    | succ j =>
      have hj : childAt rest j = none := by simpa [childAt] using h
      have hjlt : j < rest.length := by simpa using hlt
      have := ih hj hjlt
      cases oc <;> simpa [setChild, List.filterMap_cons] using this

/-- specification of the new node spliced in by critnib_set: it satisfies the
invariant and its leaves are the old subtree's leaves plus the new leaf -/
theorem mkNewNode_spec (key : List Nat) (v : Nat) (nkkey : List Nat) (diff sh : Nat)
    (iw ik : Nat)
    (hiw : iw = sliceIndex (byteAt nkkey diff) sh)
    (hik : ik = sliceIndex (byteAt key diff) sh)
    (hvk : ValidKey key)
    (hdk : diff < key.length)
    (hshmem : sh = 0 ∨ sh = 4 ∨ sh = 28)
    (hslne : iw ≠ ik)
    (hagKN : AgreeUpTo diff sh key nkkey)
    (n : CNode) (hinvn : invN n = true)
    (hstop : ∀ ch2 b2 s2, n = .node ch2 b2 s2 → diff < b2 ∨ (diff = b2 ∧ s2 < sh))
    (hnkin : ∀ p ∈ leavesN n,
      AgreeUpTo diff sh p.1 nkkey ∧ diff < p.1.length ∧ nibAt p.1 diff sh = iw) :
    invN (mkNewNode (some n) key v nkkey diff sh) = true ∧
    (leavesN (mkNewNode (some n) key v nkkey diff sh)).Perm ((key, v) :: leavesN n) := by
  have hiw16 : iw < 16 := by rw [hiw]; exact sliceIndex_lt_16 _ _
  have hik16 : ik < 16 := by rw [hik]; exact sliceIndex_lt_16 _ _
  have hmk : mkNewNode (some n) key v nkkey diff sh =
      CNode.node (setChild (setChild emptyChildren iw (some n)) ik
        (some (.leaf key v))) diff sh := by
    simp only [mkNewNode]
    rw [hiw, hik]
  rw [hmk]
  have hca_empty : ∀ j, childAt emptyChildren j = none := fun j =>
    childAt_replicate_none 16 j
  have hlen0 : (setChild emptyChildren iw (some n)).length = 16 := by
    rw [length_setChild, emptyChildren_length]
  have hlen1 : (setChild (setChild emptyChildren iw (some n)) ik
      (some (.leaf key v))).length = 16 := by
    rw [length_setChild, hlen0]
  have hca0_iw : childAt (setChild emptyChildren iw (some n)) iw = some n :=
    childAt_set_self _ (by rw [emptyChildren_length]; exact hiw16)
  have hca0_ik : childAt (setChild emptyChildren iw (some n)) ik = none := by
    rw [childAt_set_ne _ _ hslne]
    exact hca_empty ik
  have hca1_ik : childAt (setChild (setChild emptyChildren iw (some n)) ik
      (some (.leaf key v))) ik = some (.leaf key v) :=
    childAt_set_self _ (by rw [hlen0]; exact hik16)
  have hca1_iw : childAt (setChild (setChild emptyChildren iw (some n)) ik
      (some (.leaf key v))) iw = some n := by
    rw [childAt_set_ne _ _ (fun hc => hslne hc.symm)]
    exact hca0_iw
  have hca1_other : ∀ j, j ≠ iw → j ≠ ik →
      childAt (setChild (setChild emptyChildren iw (some n)) ik
        (some (.leaf key v))) j = none := by
    intro j hjw hjk
    rw [childAt_set_ne _ _ (fun hc => hjk hc.symm),
      childAt_set_ne _ _ (fun hc => hjw hc.symm)]
    exact hca_empty j
  have hempty_fm : emptyChildren.filterMap id = [] := filterMap_replicate_none 16
  have hcount0 : ((setChild emptyChildren iw (some n)).filterMap id).length = 1 := by
    rw [length_filterMap_set_some_of_none (hca_empty iw)
      (by rw [emptyChildren_length]; exact hiw16) n, hempty_fm]
    rfl
  have hcount1 : ((setChild (setChild emptyChildren iw (some n)) ik
      (some (.leaf key v))).filterMap id).length = 2 := by
    rw [length_filterMap_set_some_of_none hca0_ik (by rw [hlen0]; exact hik16)
      (CNode.leaf key v), hcount0]
  have hmem1 : ∀ p ∈ leavesL (setChild (setChild emptyChildren iw (some n)) ik
      (some (.leaf key v))), p = (key, v) ∨ p ∈ leavesN n := by
    intro p hp
    rw [mem_leavesL_iff] at hp
    obtain ⟨j, m, hj, hm⟩ := hp
    by_cases hjik : j = ik
    · subst hjik
      rw [hca1_ik] at hj
      injection hj with hinj
      subst hinj
      left
      rw [leavesN_leaf] at hm
      simpa using hm
    · by_cases hjiw : j = iw
      · subst hjiw
        rw [hca1_iw] at hj
        injection hj with hinj
        subst hinj
        right
        exact hm
      · rw [hca1_other j hjiw hjik] at hj
        simp at hj
  have hhub : ∀ p ∈ leavesL (setChild (setChild emptyChildren iw (some n)) ik
      (some (.leaf key v))), AgreeUpTo diff sh p.1 nkkey := by
    intro p hp
    rcases hmem1 p hp with h1 | h1
    · rw [h1]
      exact hagKN
    · exact (hnkin p h1).1
  have hchok : ∀ j m, childAt (setChild (setChild emptyChildren iw (some n)) ik
      (some (.leaf key v))) j = some m → ChildOk diff sh j m := by
    intro j m hj
    by_cases hjik : j = ik
    · subst hjik
      rw [hca1_ik] at hj
      injection hj with hinj
      subst hinj
      refine ⟨(invN_leaf_iff key v).2 hvk, ?_, ?_⟩
      · intro p hp
        rw [leavesN_leaf] at hp
        simp only [List.mem_singleton] at hp
        subst hp
        exact ⟨hdk, hik.symm⟩
      · intro ch2 b2 s2 hm
        simp at hm
    · by_cases hjiw : j = iw
      · subst hjiw
        rw [hca1_iw] at hj
        injection hj with hinj
        subst hinj
        refine ⟨hinvn, ?_, ?_⟩
        · intro p hp
          exact ⟨(hnkin p hp).2.1, (hnkin p hp).2.2⟩
        · intro ch2 b2 s2 hm
          exact hstop ch2 b2 s2 hm
      · rw [hca1_other j hjiw hjik] at hj
        simp at hj
  have hP2 : (leavesL (setChild emptyChildren iw (some n))).Perm (leavesN n) := by
    have hq := leavesL_set_perm emptyChildren iw (some n)
      (by rw [emptyChildren_length]; exact hiw16)
    rw [hca_empty iw] at hq
    have hemp : leavesL emptyChildren = [] := leavesL_replicate_none 16
    rw [hemp] at hq
    simpa [leaves] using hq
  have hP1 : (leavesL (setChild (setChild emptyChildren iw (some n)) ik
      (some (.leaf key v)))).Perm
      (leavesL (setChild emptyChildren iw (some n)) ++ [(key, v)]) := by
    have hq := leavesL_set_perm (setChild emptyChildren iw (some n)) ik
      (some (.leaf key v)) (by rw [hlen0]; exact hik16)
    rw [hca0_ik] at hq
    simpa [leaves, leavesN_leaf] using hq
  have hperm : (leavesL (setChild (setChild emptyChildren iw (some n)) ik
      (some (.leaf key v)))).Perm ((key, v) :: leavesN n) :=
    hP1.trans ((hP2.append_right [(key, v)]).trans List.perm_append_comm)
  constructor
  · rw [invN_node_iff]
    refine ⟨hlen1, hshmem, by omega, hchok, ?_⟩
    intro p1 hp1 p2 hp2
    exact agree_trans (hhub p1 hp1) (agree_symm (hhub p2 hp2))
  · rw [leavesN_node]
    exact hperm

theorem splice_none (key : List Nat) (v : Nat) (nkkey : List Nat) (diff sh : Nat) :
    splice key v nkkey diff sh none = some (.leaf key v) := by
  rw [splice]

/-- rebuilding a node of the continue case of the second descent: replacing
the child at the new key's nibble by a subtree whose leaves are the old
slot's leaves plus the new leaf preserves the invariant -/
theorem node_rebuild_spec (key : List Nat) (v : Nat) (nkkey : List Nat) (diff sh : Nat)
    (hagKN : AgreeUpTo diff sh key nkkey)
    (ch : List (Option CNode)) (b s : Nat)
    (hinv : invN (.node ch b s) = true)
    (hg : b < diff ∨ (b = diff ∧ sh ≤ s))
    (hbk : b < key.length)
    (nt : CNode)
    (hinvnt : invN nt = true)
    (hpermnt : (leavesN nt).Perm
      ((key, v) :: leaves (childAt ch (sliceIndex (byteAt key b) s))))
    (hlaternt : rootLater b s (some nt))
    (hnkmem : ∃ v2, (nkkey, v2) ∈ leavesL ch) :
    invN (.node (setChild ch (sliceIndex (byteAt key b) s) (some nt)) b s) = true ∧
    (leavesL (setChild ch (sliceIndex (byteAt key b) s) (some nt))).Perm
      ((key, v) :: leavesL ch) := by
  obtain ⟨hlen, hsmem, hcount, hch, hagree⟩ := (invN_node_iff ch b s).1 hinv
  obtain ⟨v2, hv2⟩ := hnkmem
  have hi16 : sliceIndex (byteAt key b) s < 16 := sliceIndex_lt_16 _ _
  have hilen : sliceIndex (byteAt key b) s < ch.length := by omega
  have hPset := leavesL_set_perm ch (sliceIndex (byteAt key b) s) (some nt) hilen
  rw [leaves_some] at hPset
  have hchain : (leavesL (setChild ch (sliceIndex (byteAt key b) s) (some nt)) ++
      leaves (childAt ch (sliceIndex (byteAt key b) s))).Perm
      (((key, v) :: leavesL ch) ++ leaves (childAt ch (sliceIndex (byteAt key b) s))) :=
    hPset.trans ((hpermnt.append_left (leavesL ch)).trans List.perm_middle)
  have hperm : (leavesL (setChild ch (sliceIndex (byteAt key b) s) (some nt))).Perm
      ((key, v) :: leavesL ch) :=
    (List.perm_append_right_iff _).1 hchain
  have hhub : ∀ p ∈ (key, v) :: leavesL ch, AgreeUpTo b s p.1 nkkey := by
    intro p hp
    rcases List.mem_cons.1 hp with h1 | h1
    · rw [h1]
      exact agree_mono hagKN hg
    · exact hagree p h1 (nkkey, v2) hv2
  refine ⟨?_, hperm⟩
  rw [invN_node_iff]
  refine ⟨?_, hsmem, ?_, ?_, ?_⟩
  · rw [length_setChild, hlen]
  · exact le_trans hcount (length_filterMap_set_some_ge ch _ nt)
  · intro j m hj
    by_cases hji : j = sliceIndex (byteAt key b) s
    · subst hji
      rw [childAt_set_self _ hilen] at hj
      injection hj with hinj
      subst hinj
      refine ⟨hinvnt, ?_, ?_⟩
      · intro p hp
        rcases List.mem_cons.1 (hpermnt.subset hp) with h1 | h1
        · rw [h1]
          exact ⟨hbk, rfl⟩
        · cases hcc : childAt ch (sliceIndex (byteAt key b) s) with
          | none =>
            rw [hcc] at h1
            simp [leaves] at h1
          | some m0 =>
            rw [hcc] at h1
            rw [leaves_some] at h1
            exact (hch _ m0 hcc).2.1 p h1
      · intro ch2 b2 s2 hm
        subst hm
        exact hlaternt
    · rw [childAt_set_ne _ _ (fun hc => hji hc.symm)] at hj
      exact hch j m hj
  · intro p1 hp1 p2 hp2
    have h1 := hhub p1 (hperm.subset hp1)
    have h2 := hhub p2 (hperm.subset hp2)
    exact agree_trans h1 (agree_symm h2)

/-- the second descent of critnib_set, on a nonempty tree containing the
witness leaf the first descent found: it preserves the invariant, adds
exactly the new leaf, and keeps the root coordinate no earlier than any
bound earlier than the divergence point -/
theorem splice_spec (key : List Nat) (v : Nat) (nkkey : List Nat) (diff sh : Nat)
    (hvk : ValidKey key)
    (hdk : diff < key.length)
    (hdn : diff < nkkey.length)
    (hshmem : sh = 0 ∨ sh = 4 ∨ sh = 28)
    (hslne : sliceIndex (byteAt nkkey diff) sh ≠ sliceIndex (byteAt key diff) sh)
    (hagKN : AgreeUpTo diff sh key nkkey) :
    ∀ n : CNode, invN n = true → find_witness key (some n) = some nkkey →
      Inv (splice key v nkkey diff sh (some n)) = true ∧
      (leaves (splice key v nkkey diff sh (some n))).Perm ((key, v) :: leavesN n) ∧
      (∀ b0 s0, rootLater b0 s0 (some n) → coordLt b0 s0 diff sh →
        rootLater b0 s0 (splice key v nkkey diff sh (some n))) := by
  apply cnode_strong_ind
  intro n ih hinv hfw
  cases n with
  | leaf lk lv =>
    have hlk : lk = nkkey := by
      rw [find_witness] at hfw
      exact Option.some.inj hfw
    rw [hlk] at hinv ⊢
    have hsp : splice key v nkkey diff sh (some (.leaf nkkey lv)) =
        some (mkNewNode (some (.leaf nkkey lv)) key v nkkey diff sh) := by
      rw [splice]
    have hnkin : ∀ p ∈ leavesN (.leaf nkkey lv),
        AgreeUpTo diff sh p.1 nkkey ∧ diff < p.1.length ∧
          nibAt p.1 diff sh = sliceIndex (byteAt nkkey diff) sh := by
      intro p hp
      rw [leavesN_leaf] at hp
      simp only [List.mem_singleton] at hp
      subst hp
      exact ⟨agree_refl _ _ _, hdn, rfl⟩
    have hmns := mkNewNode_spec key v nkkey diff sh
      (sliceIndex (byteAt nkkey diff) sh) (sliceIndex (byteAt key diff) sh)
      rfl rfl hvk hdk hshmem hslne hagKN (.leaf nkkey lv) hinv
      (fun ch2 b2 s2 hm => by simp at hm) hnkin
    rw [hsp]
    refine ⟨hmns.1, ?_, ?_⟩
    · rw [leaves_some]
      exact hmns.2
    · intro b0 s0 h1 h2
      show coordLt b0 s0 diff sh
      exact h2
  | node ch b s =>
    obtain ⟨hlen, hsmem, hcount, hch, hagree⟩ := (invN_node_iff ch b s).1 hinv
    obtain ⟨v2, hv2⟩ := find_witness_mem key (some (.node ch b s)) nkkey hfw
    rw [leaves_some, leavesN_node] at hv2
    by_cases hg : b < diff ∨ (b = diff ∧ sh ≤ s)
    · have hbd : b ≤ diff := by rcases hg with h | ⟨h, _⟩ <;> omega
      have hbk : b < key.length := by omega
      cases hcc : childAt ch (sliceIndex (byteAt key b) s) with
      | none =>
        have hsp : splice key v nkkey diff sh (some (.node ch b s)) =
            some (.node (setChild ch (sliceIndex (byteAt key b) s)
              (splice key v nkkey diff sh
                (childAt ch (sliceIndex (byteAt key b) s)))) b s) := by
          rw [splice, if_pos hg]
        rw [hcc, splice_none] at hsp
        have hrb := node_rebuild_spec key v nkkey diff sh hagKN ch b s hinv hg hbk
          (.leaf key v) ((invN_leaf_iff key v).2 hvk)
          (by rw [leavesN_leaf, hcc, leaves_none])
          True.intro ⟨v2, hv2⟩
        rw [hsp]
        refine ⟨hrb.1, ?_, ?_⟩
        · rw [leaves_some, leavesN_node, leavesN_node]
          exact hrb.2
        · intro b0 s0 h1 h2
          exact h1
      | some nn =>
        have hfw2 : find_witness key (some nn) = some nkkey := by
          rw [find_witness, if_pos hbk, if_pos (by simp [hcc]), hcc] at hfw
          exact hfw
        have hcok := hch (sliceIndex (byteAt key b) s) nn hcc
        have hlt_ds : b < diff ∨ (b = diff ∧ sh < s) := by
          rcases hg with h1 | ⟨h1, h2⟩
          · exact Or.inl h1
          · refine Or.inr ⟨h1, ?_⟩
            rcases Nat.lt_or_ge sh s with h3 | h3
            · exact h3
            · exfalso
              have hse : s = sh := by omega
              obtain ⟨v3, hv3⟩ := find_witness_mem key (some nn) nkkey hfw2
              rw [leaves_some] at hv3
              have hnib := (hcok.2.1 (nkkey, v3) hv3).2
              subst h1
              subst hse
              exact hslne hnib
        have hinvnn : invN nn = true := hcok.1
        have hrl : rootLater b s (some nn) := by
          cases nn with
          | leaf a c => exact True.intro
          | node ch2 b2 s2 => exact hcok.2.2 ch2 b2 s2 rfl
        have hihs := ih nn (sizeOf_of_mem_child (childAt_mem hcc)) hinvnn hfw2
        obtain ⟨m2, hm2⟩ := splice_isSome key v nkkey diff sh (some nn)
        rw [hm2] at hihs
        have hrb := node_rebuild_spec key v nkkey diff sh hagKN ch b s hinv hg hbk
          m2 hihs.1
          (by rw [hcc]; exact hihs.2.1)
          (hihs.2.2 b s hrl hlt_ds) ⟨v2, hv2⟩
        have hsp : splice key v nkkey diff sh (some (.node ch b s)) =
            some (.node (setChild ch (sliceIndex (byteAt key b) s)
              (splice key v nkkey diff sh
                (childAt ch (sliceIndex (byteAt key b) s)))) b s) := by
          rw [splice, if_pos hg]
        rw [hcc, hm2] at hsp
        rw [hsp]
        refine ⟨hrb.1, ?_, ?_⟩
        · rw [leaves_some, leavesN_node, leavesN_node]
          exact hrb.2
        · intro b0 s0 h1 h2
          exact h1
    · have hsp : splice key v nkkey diff sh (some (.node ch b s)) =
          some (mkNewNode (some (.node ch b s)) key v nkkey diff sh) := by
        rw [splice, if_neg hg]
      have hstop2 : diff < b ∨ (diff = b ∧ s < sh) := by
        push_neg at hg
        omega
      have hnkin : ∀ p ∈ leavesN (.node ch b s),
          AgreeUpTo diff sh p.1 nkkey ∧ diff < p.1.length ∧
            nibAt p.1 diff sh = sliceIndex (byteAt nkkey diff) sh := by
        intro p hp
        rw [leavesN_node] at hp
        have hagp : AgreeUpTo b s p.1 nkkey := hagree p hp (nkkey, v2) hv2
        have hA : AgreeUpTo diff sh p.1 nkkey := agree_mono hagp (by omega)
        have hblen : b < p.1.length := by
          rw [mem_leavesL_iff] at hp
          obtain ⟨j, m, hj, hpm⟩ := hp
          exact ((hch j m hj).2.1 p hpm).1
        refine ⟨hA, by omega, ?_⟩
        exact nib_eq_of_agree_coordLt hagp hstop2 hshmem
      have hstopA : ∀ ch2 b2 s2, CNode.node ch b s = .node ch2 b2 s2 →
          diff < b2 ∨ (diff = b2 ∧ s2 < sh) := by
        intro ch2 b2 s2 hm
        injection hm with hq1 hq2 hq3
        subst hq2
        subst hq3
        exact hstop2
      have hmns := mkNewNode_spec key v nkkey diff sh
        (sliceIndex (byteAt nkkey diff) sh) (sliceIndex (byteAt key diff) sh)
        rfl rfl hvk hdk hshmem hslne hagKN (.node ch b s) hinv hstopA hnkin
      rw [hsp]
      refine ⟨hmns.1, ?_, ?_⟩
      · rw [leaves_some]
        exact hmns.2
      · intro b0 s0 h1 h2
        show coordLt b0 s0 diff sh
        exact h2

/-! ## critnib_remove preserves the invariant -/

theorem coordLt_trans {b0 s0 b s b2 s2 : Nat} (h1 : coordLt b0 s0 b s)
    (h2 : coordLt b s b2 s2) : coordLt b0 s0 b2 s2 := by
  have h1b : b0 < b ∨ (b0 = b ∧ s < s0) := h1
  have h2b : b < b2 ∨ (b = b2 ∧ s2 < s) := h2
  show b0 < b2 ∨ (b0 = b2 ∧ s2 < s0)
  omega

theorem leavesN_ne_nil (n : CNode) (hinv : invN n = true) : leavesN n ≠ [] := by
  obtain ⟨p, hp⟩ := Option.isSome_iff_exists.1 (any_leaf_isSome n hinv)
  have hm := any_leaf_mem (some n) p hp
  rw [leaves_some] at hm
  intro hc
  rw [hc] at hm
  simp at hm

theorem le_length_leavesL (ch : List (Option CNode))
    (hne : ∀ m, some m ∈ ch → leavesN m ≠ []) :
    (ch.filterMap id).length ≤ (leavesL ch).length := by
  induction ch with
  | nil => simp [leavesL]
  | cons oc rest ih =>
    have hrest := ih (fun m hm => hne m (List.mem_cons_of_mem _ hm))
    cases oc with
    | none => simpa [List.filterMap_cons, leavesL_cons, leaves] using hrest
    | some m =>
      have hm := hne m (List.mem_cons_self _ _)
      have hlen1 : 1 ≤ (leavesN m).length := by
        cases hq : leavesN m with
        | nil => exact absurd hq hm
        | cons a l => simp
      rw [leavesL_cons]
      simp only [List.filterMap_cons, id, leaves_some, List.length_append,
        List.length_cons]
      omega

theorem two_le_leavesL (ch : List (Option CNode)) (b s : Nat)
    (hinv : invN (.node ch b s) = true) : 2 ≤ (leavesL ch).length := by
  obtain ⟨hlen, hsmem, hcount, hch, hagree⟩ := (invN_node_iff ch b s).1 hinv
  have hne : ∀ m, some m ∈ ch → leavesN m ≠ [] := by
    intro m hm
    obtain ⟨j, hj⟩ := mem_childAt hm
    exact leavesN_ne_nil m (hch j m hj).1
  have := le_length_leavesL ch hne
  omega

theorem removeRec_miss (key : List Nat) : ∀ t : Option CNode,
    (removeRec key t).1 = none → (removeRec key t).2 = t := by
  intro t
  induction t using removeRec.induct key with
  | case1 =>
    intro h1
    rw [removeRec]
  | case2 lv =>
    intro h1
    rw [removeRec, if_pos rfl] at h1
    simp at h1
  | case3 lk lv hne =>
    intro h1
    rw [removeRec, if_neg hne]
  | case4 ch b s hlen =>
    intro h1
    rw [removeRec, if_pos hlen]
  | case5 ch b s hlen i h =>
    intro h1
    rw [removeRec]
    simp [hlen, h]
  | case6 ch b s hlen i lv ch1 hfm h =>
    intro h1
    rw [removeRec] at h1
    simp [hlen, h, hfm] at h1
  | case7 ch b s hlen i lv ch1 m hfm h =>
    intro h1
    rw [removeRec] at h1
    simp [hlen, h, hfm] at h1
  | case8 ch b s hlen i lv ch1 m1 m2 tl hfm h =>
    intro h1
    rw [removeRec] at h1
    simp [hlen, h, hfm] at h1
  | case9 ch b s hlen i lk lv h hne =>
    intro h1
    rw [removeRec]
    simp [hlen, h, hne]
  | case10 ch b s hlen i ch2 b2 s2 h snd hrec ih =>
    intro h1
    rw [removeRec]
    rw [h] at hrec
    simp [hlen, h, hrec]
  | case11 ch b s hlen i ch2 b2 s2 h vr tr hrec ih =>
    intro h1
    rw [removeRec] at h1
    rw [h] at hrec
    simp [hlen, h, hrec] at h1

theorem removeRec_some_spec (key : List Nat) : ∀ t : Option CNode, Inv t = true →
    ∀ v t2, removeRec key t = (some v, t2) →
      Inv t2 = true ∧
      (leaves t).Perm ((key, v) :: leaves t2) ∧
      (∀ b0 s0, rootLater b0 s0 t → rootLater b0 s0 t2) := by
  intro t
  induction t using removeRec.induct key with
  | case1 =>
    intro hinv v t2 hrm
    rw [removeRec] at hrm
    simp at hrm
  | case2 lv =>
    intro hinv v t2 hrm
    rw [removeRec, if_pos rfl] at hrm
    obtain ⟨h1, h2⟩ := Prod.mk.injEq _ _ _ _ ▸ hrm
    injection h1 with h1b
    subst h1b
    subst h2
    refine ⟨rfl, ?_, ?_⟩
    · rw [leaves_some, leavesN_leaf, leaves_none]
    · intro b0 s0 hrl
      exact True.intro
  | case3 lk lv hne =>
    intro hinv v t2 hrm
    rw [removeRec, if_neg hne] at hrm
    simp at hrm
  | case4 ch b s hlen =>
    intro hinv v t2 hrm
    rw [removeRec, if_pos hlen] at hrm
    simp at hrm
  | case5 ch b s hlen i h =>
    intro hinv v t2 hrm
    rw [removeRec] at hrm
    simp [hlen, h] at hrm
  | case6 ch b s hlen i lv ch1 hfm h =>
    intro hinv v t2 hrm
    rw [removeRec] at hrm
    simp only [hlen, ite_false, if_neg, h, hfm, if_pos] at hrm
    obtain ⟨h1, h2⟩ := Prod.mk.injEq _ _ _ _ ▸ hrm
    injection h1 with h1b
    subst h1b
    subst h2
    have hilen : i < ch.length := childAt_lt_length h
    have hset := leavesL_set_perm ch i none hilen
    have hnil : leavesL (setChild ch i none) = [] := leavesL_of_filterMap_nil hfm
    rw [hnil, h] at hset
    simp only [leaves_some, leavesN_leaf, leaves_none, List.nil_append,
      List.append_nil] at hset
    refine ⟨rfl, ?_, ?_⟩
    · rw [leaves_some, leavesN_node, leaves_none]
      exact hset.symm
    · intro b0 s0 hrl
      exact True.intro
  | case7 ch b s hlen i lv ch1 m hfm h =>
    intro hinv v t2 hrm
    rw [removeRec] at hrm
    simp only [hlen, ite_false, if_neg, h, hfm, if_true] at hrm
    obtain ⟨h1, h2⟩ := Prod.mk.injEq _ _ _ _ ▸ hrm
    injection h1 with h1b
    subst h1b
    subst h2
    obtain ⟨hlen16, hsmem, hcount, hch, hagree⟩ := (invN_node_iff ch b s).1 hinv
    have hmm : some m ∈ setChild ch i none := by
      apply mem_filterMap_id_iff.1
      rw [hfm]
      simp
    have hmc : some m ∈ ch := by
      rcases mem_setChild_none hmm with h2 | h2
      · exact h2
      · simp at h2
    obtain ⟨j, hj⟩ := mem_childAt hmc
    have hcok := hch j m hj
    have hilen : i < ch.length := childAt_lt_length h
    have hset := leavesL_set_perm ch i none hilen
    have hone : leavesL (setChild ch i none) = leavesN m :=
      leavesL_of_filterMap_singleton hfm
    rw [hone, h] at hset
    simp only [leaves_some, leavesN_leaf, leaves_none, List.append_nil] at hset
    refine ⟨hcok.1, ?_, ?_⟩
    · rw [leaves_some, leavesN_node, leaves_some]
      exact hset.symm.trans List.perm_append_comm
    · intro b0 s0 hrl
      cases hm2 : m with
      | leaf a c => exact True.intro
      | node ch2 b2 s2 =>
        have hco := hcok.2.2 ch2 b2 s2 hm2
        exact coordLt_trans hrl hco
  | case8 ch b s hlen i lv ch1 m1 m2 tl hfm h =>
    intro hinv v t2 hrm
    rw [removeRec] at hrm
    simp only [hlen, ite_false, if_neg, h, hfm, if_true] at hrm
    obtain ⟨h1, h2⟩ := Prod.mk.injEq _ _ _ _ ▸ hrm
    injection h1 with h1b
    subst h1b
    subst h2
    obtain ⟨hlen16, hsmem, hcount, hch, hagree⟩ := (invN_node_iff ch b s).1 hinv
    have hilen : i < ch.length := childAt_lt_length h
    have hset := leavesL_set_perm ch i none hilen
    rw [h] at hset
    simp only [leaves_some, leavesN_leaf, leaves_none, List.append_nil] at hset
    have hsub : ∀ p, p ∈ leavesL (setChild ch i none) → p ∈ leavesL ch := by
      intro p hp
      rw [mem_leavesL_iff] at hp
      obtain ⟨j, m, hj, hm⟩ := hp
      by_cases hji : j = i
      · subst hji
        rw [childAt_set_self _ hilen] at hj
        simp at hj
      · rw [childAt_set_ne _ _ (fun hc => hji hc.symm)] at hj
        rw [mem_leavesL_iff]
        exact ⟨j, m, hj, hm⟩
    refine ⟨?_, ?_, ?_⟩
    · rw [Inv_some, invN_node_iff]
      refine ⟨by rw [length_setChild, hlen16], hsmem, ?_, ?_, ?_⟩
      · rw [hfm]
        simp
      · intro j m hj
        by_cases hji : j = i
        · subst hji
          rw [childAt_set_self _ hilen] at hj
          simp at hj
        · rw [childAt_set_ne _ _ (fun hc => hji hc.symm)] at hj
          exact hch j m hj
      · intro p1 hp1 p2 hp2
        exact hagree p1 (hsub p1 hp1) p2 (hsub p2 hp2)
    · rw [leaves_some, leavesN_node, leaves_some, leavesN_node]
      exact hset.symm.trans List.perm_append_comm
    · intro b0 s0 hrl
      exact hrl
  | case9 ch b s hlen i lk lv h hne =>
    intro hinv v t2 hrm
    rw [removeRec] at hrm
    simp [hlen, h, hne] at hrm
  | case10 ch b s hlen i ch2 b2 s2 h snd hrec ih =>
    intro hinv v t2 hrm
    rw [removeRec] at hrm
    rw [h] at hrec
    simp [hlen, h, hrec] at hrm
  | case11 ch b s hlen i ch2 b2 s2 h vr tr hrec ih =>
    intro hinv v t2 hrm
    rw [removeRec] at hrm
    rw [h] at hrec ih
    simp only [hlen, ite_false, if_neg, h, hrec] at hrm
    obtain ⟨h1, h2⟩ := Prod.mk.injEq _ _ _ _ ▸ hrm
    injection h1 with h1b
    subst h1b
    subst h2
    obtain ⟨hlen16, hsmem, hcount, hch, hagree⟩ := (invN_node_iff ch b s).1 hinv
    have hcok := hch i (.node ch2 b2 s2) h
    have ihs := ih hcok.1 vr tr hrec
    cases htr : tr with
    | none =>
      exfalso
      rw [htr] at ihs
      have hlq := ihs.2.1.length_eq
      rw [leaves_some, leavesN_node, leaves_none] at hlq
      have h2l := two_le_leavesL ch2 b2 s2 hcok.1
      simp at hlq
      omega
    | some m2 =>
      subst htr
      rw [leaves_some] at ihs
      have hilen : i < ch.length := childAt_lt_length h
      have hsub2 : ∀ p, p ∈ leavesN m2 → p ∈ leavesN (CNode.node ch2 b2 s2) := by
        intro p hp
        exact ihs.2.1.symm.subset (List.mem_cons_of_mem _ hp)
      have hsubch : ∀ p, p ∈ leavesL (setChild ch i (some m2)) → p ∈ leavesL ch := by
        intro p hp
        rw [mem_leavesL_iff] at hp
        obtain ⟨j, m, hj, hm⟩ := hp
        by_cases hji : j = i
        · subst hji
          rw [childAt_set_self _ hilen] at hj
          injection hj with hinj
          subst hinj
          rw [mem_leavesL_iff]
          exact ⟨i, .node ch2 b2 s2, h, hsub2 p hm⟩
        · rw [childAt_set_ne _ _ (fun hc => hji hc.symm)] at hj
          rw [mem_leavesL_iff]
          exact ⟨j, m, hj, hm⟩
      refine ⟨?_, ?_, ?_⟩
      · rw [Inv_some, invN_node_iff]
        refine ⟨by rw [length_setChild, hlen16], hsmem, ?_, ?_, ?_⟩
        · exact le_trans hcount (length_filterMap_set_some_ge ch i m2)
        · intro j m hj
          by_cases hji : j = i
          · subst hji
            rw [childAt_set_self _ hilen] at hj
            injection hj with hinj
            subst hinj
            refine ⟨ihs.1, ?_, ?_⟩
            · intro p hp
              exact hcok.2.1 p (hsub2 p hp)
            · intro ch3 b3 s3 hm3
              subst hm3
              exact ihs.2.2 b s (hcok.2.2 ch2 b2 s2 rfl)
          · rw [childAt_set_ne _ _ (fun hc => hji hc.symm)] at hj
            exact hch j m hj
        · intro p1 hp1 p2 hp2
          exact hagree p1 (hsubch p1 hp1) p2 (hsubch p2 hp2)
      · have hset := leavesL_set_perm ch i (some m2) hilen
        rw [h] at hset
        simp only [leaves_some] at hset
        have hchain : (leavesL ch ++ leavesN m2).Perm
            (((key, vr) :: leavesL (setChild ch i (some m2))) ++ leavesN m2) :=
          hset.symm.trans ((ihs.2.1.append_left
            (leavesL (setChild ch i (some m2)))).trans List.perm_middle)
        rw [leaves_some, leavesN_node, leaves_some, leavesN_node]
        exact (List.perm_append_right_iff _).1 hchain
      · intro b0 s0 hrl
        exact hrl

/-! ## The first descent on prefix-related keys, and critnib_set -/

theorem firstDiff_self (a : List Nat) : firstDiff a a = none :=
  (firstDiff_none_iff a a).2 (Or.inl (List.prefix_refl a))

theorem take_eq_of_prefix {k1 k2 : List Nat} (h : k1 <+: k2) {m : Nat}
    (hm : m ≤ k1.length) : k1.take m = k2.take m := by
  obtain ⟨tl, htl⟩ := h
  rw [← htl, List.take_append_of_le_length hm]

theorem byteAt_eq_of_prefix_rel {k1 k2 : List Nat} (h : k1 <+: k2 ∨ k2 <+: k1)
    {b : Nat} (hb1 : b < k1.length) (hb2 : b < k2.length) :
    byteAt k1 b = byteAt k2 b := by
  rcases h with h | h
  · have ht : k1.take (b + 1) = k2.take (b + 1) := take_eq_of_prefix h (by omega)
    exact byteAt_eq_of_take_eq ht (by omega)
  · have ht : k2.take (b + 1) = k1.take (b + 1) := take_eq_of_prefix h (by omega)
    exact (byteAt_eq_of_take_eq ht (by omega)).symm

/-- the first descent of critnib_set, on a tree with a key prefix-related to
the searched key, returns a witness that is itself prefix-related to it -/
theorem find_witness_prefix (key : List Nat) : ∀ n : CNode, invN n = true →
    ∀ k0 v0, (k0, v0) ∈ leavesN n → (key <+: k0 ∨ k0 <+: key) →
    ∃ nk, find_witness key (some n) = some nk ∧ (key <+: nk ∨ nk <+: key) := by
  apply cnode_strong_ind
  intro n ih hinv k0 v0 hmem hpre
  cases n with
  | leaf lk lv =>
    rw [leavesN_leaf] at hmem
    simp only [List.mem_singleton, Prod.mk.injEq] at hmem
    refine ⟨lk, by rw [find_witness], ?_⟩
    rw [← hmem.1]
    exact hpre
  | node ch b s =>
    obtain ⟨hlen, hsmem, hcount, hch, hagree⟩ := (invN_node_iff ch b s).1 hinv
    rw [leavesN_node] at hmem
    have hmemL := hmem
    rw [mem_leavesL_iff] at hmemL
    obtain ⟨j0, m0, hj0, hm0⟩ := hmemL
    have hcok0 := hch j0 m0 hj0
    have hk0len : b < k0.length := (hcok0.2.1 (k0, v0) hm0).1
    have hnib0 : nibAt k0 b s = j0 := (hcok0.2.1 (k0, v0) hm0).2
    by_cases hb : b < key.length
    · have hbyte : byteAt key b = byteAt k0 b := byteAt_eq_of_prefix_rel hpre hb hk0len
      have hnibk : sliceIndex (byteAt key b) s = j0 := by
        rw [hbyte]
        exact hnib0
      have hceq : childAt ch (sliceIndex (byteAt key b) s) = some m0 := by
        rw [hnibk]
        exact hj0
      obtain ⟨nk, hfw, hp⟩ := ih m0 (sizeOf_of_mem_child (childAt_mem hj0))
        hcok0.1 k0 v0 hm0 hpre
      refine ⟨nk, ?_, hp⟩
      rw [find_witness, if_pos hb, if_pos (by simp [hceq]), hceq]
      exact hfw
    · obtain ⟨p, hp⟩ := Option.isSome_iff_exists.1 (any_leaf_isSome (.node ch b s) hinv)
      have hpmem := any_leaf_mem (some (.node ch b s)) p hp
      rw [leaves_some, leavesN_node] at hpmem
      have hpmemL := hpmem
      rw [mem_leavesL_iff] at hpmemL
      obtain ⟨j1, m1, hj1, hm1⟩ := hpmemL
      have hplen : b < p.1.length := ((hch j1 m1 hj1).2.1 p hm1).1
      have hk0pre : key <+: k0 := by
        rcases hpre with h1 | h1
        · exact h1
        · exfalso
          have := h1.length_le
          omega
      have htake : p.1.take b = k0.take b := (hagree p hpmem (k0, v0) hmem).1
      have hkey_eq : key = p.1.take key.length := by
        have h1 : key = k0.take key.length :=
          (List.prefix_iff_eq_take.1 hk0pre)
        have h2 : p.1.take key.length = k0.take key.length :=
          take_eq_mono htake (by omega)
        rw [← h2] at h1
        exact h1
      refine ⟨p.1, ?_, Or.inl (List.prefix_iff_eq_take.2 hkey_eq)⟩
      rw [find_witness, if_neg hb, hp]
      rfl

/-- a key prefix-related to a stored key makes critnib_set return EEXIST and
leave the index unchanged -/
theorem critnib_set_eexist (c : Critnib) (key : List Nat) (v : Nat)
    (hinv : Inv c.root = true)
    (k0 : List Nat) (v0 : Nat) (hmem : (k0, v0) ∈ leaves c.root)
    (hpre : key <+: k0 ∨ k0 <+: key) :
    critnib_set c key v = (.eexist, c) := by
  cases hroot : c.root with
  | none =>
    rw [hroot] at hmem
    simp [leaves] at hmem
  | some r =>
    rw [hroot] at hmem hinv
    rw [leaves_some] at hmem
    obtain ⟨nk, hfw, hp⟩ := find_witness_prefix key r hinv k0 v0 hmem hpre
    have hfd : firstDiff nk key = none := (firstDiff_none_iff nk key).2 hp.symm
    simp only [critnib_set, hroot, hfw, hfd]

/-- critnib_set with a valid key on a valid index: ok results preserve the
invariant and add exactly the new leaf; non-ok results leave it unchanged -/
theorem critnib_set_main (c : Critnib) (key : List Nat) (v : Nat)
    (hvk : ValidKey key) (hinv : Inv c.root = true) :
    ((critnib_set c key v).1 = SetResult.ok →
        Inv (critnib_set c key v).2.root = true ∧
        (leaves (critnib_set c key v).2.root).Perm ((key, v) :: leaves c.root)) ∧
    ((critnib_set c key v).1 ≠ SetResult.ok → (critnib_set c key v).2 = c) := by
  cases hroot : c.root with
  | none =>
    have he : critnib_set c key v = (.ok, ⟨some (.leaf key v)⟩) := by
      simp only [critnib_set, hroot]
    rw [he]
    constructor
    · intro _
      constructor
      · exact (invN_leaf_iff key v).2 hvk
      · show (leaves (some (CNode.leaf key v))).Perm ((key, v) :: leaves none)
        rw [leaves_some, leavesN_leaf, leaves_none]
    · intro hne2
      exact absurd rfl hne2
  | some r =>
    rw [hroot] at hinv
    obtain ⟨nk, hnk⟩ := Option.isSome_iff_exists.1 (find_witness_isSome key r hinv)
    cases hfd : firstDiff nk key with
    | none =>
      have he : critnib_set c key v = (.eexist, c) := by
        simp only [critnib_set, hroot, hnk, hfd]
      rw [he]
      constructor
      · intro hok
        simp at hok
      · intro _
        rfl
    | some diff =>
      have he : critnib_set c key v = (.ok,
          ⟨splice key v nk diff (shOf (byteAt nk diff) (byteAt key diff)) (some r)⟩) := by
        simp only [critnib_set, hroot, hnk, hfd]
      obtain ⟨hd1, hd2, hd3, hd4⟩ := firstDiff_some_spec hfd
      obtain ⟨v2, hv2⟩ := find_witness_mem key (some r) nk hnk
      rw [leaves_some] at hv2
      have hvnk : ValidKey nk := fun x hx => leaves_valid r hinv (nk, v2) hv2 x hx
      have hx : byteAt key diff < 256 := hvk _ (byteAt_mem hd2)
      have hy : byteAt nk diff < 256 := hvnk _ (byteAt_mem hd1)
      have hagKN : AgreeUpTo diff (shOf (byteAt nk diff) (byteAt key diff)) key nk :=
        ⟨hd3.symm, fun h28 => (slice28_eq_of_shOf_lt hy hx h28).symm,
          fun h4 => (slice4_eq_of_shOf_lt hy hx h4).symm⟩
      have hsp := splice_spec key v nk diff (shOf (byteAt nk diff) (byteAt key diff))
        hvk hd2 hd1 (shOf_mem _ _) (slice_ne_at_shOf hy hx hd4) hagKN r hinv hnk
      rw [he]
      constructor
      · intro _
        constructor
        · exact hsp.1
        · show (leaves (splice key v nk diff
              (shOf (byteAt nk diff) (byteAt key diff)) (some r))).Perm
            ((key, v) :: leaves (some r))
          exact hsp.2.1
      · intro hne2
        exact absurd rfl hne2

/-! ## Invariant preservation across operations, minimality and bit shifts -/

theorem critnib_set_pres (c : Critnib) (key : List Nat) (v : Nat)
    (hvk : ValidKey key) (hinv : Inv c.root = true) :
    Inv (critnib_set c key v).2.root = true := by
  by_cases hok : (critnib_set c key v).1 = SetResult.ok
  · exact ((critnib_set_main c key v hvk hinv).1 hok).1
  · rw [(critnib_set_main c key v hvk hinv).2 hok]
    exact hinv

theorem critnib_remove_pres (c : Critnib) (key : List Nat)
    (hinv : Inv c.root = true) : Inv (critnib_remove c key).2.root = true := by
  show Inv (removeRec key c.root).2 = true
  cases hq : (removeRec key c.root).1 with
  | none =>
    rw [removeRec_miss key c.root hq]
    exact hinv
  | some v =>
    have hrm : removeRec key c.root = (some v, (removeRec key c.root).2) := by
      rw [← hq]
    exact (removeRec_some_spec key c.root hinv v _ hrm).1

theorem runCOp_pres (c : Critnib) (op : COp) (hvk : ValidKey (copKey op))
    (hinv : Inv c.root = true) : Inv (runCOp c op).root = true := by
  cases op with
  | set k v => exact critnib_set_pres c k v hvk hinv
  | remove k => exact critnib_remove_pres c k hinv

theorem runCOps_pres (ops : List COp) (hvk : ∀ op ∈ ops, ValidKey (copKey op)) :
    Inv (runCOps ops).root = true := by
  rw [runCOps]
  have hgen : ∀ (l : List COp) (c : Critnib), Inv c.root = true →
      (∀ op ∈ l, ValidKey (copKey op)) → Inv (l.foldl runCOp c).root = true := by
    intro l
    induction l with
    | nil =>
      intro c h1 h2
      simpa using h1
    | cons op rest ih =>
      intro c h1 h2
      rw [List.foldl_cons]
      exact ih (runCOp c op) (runCOp_pres c op (h2 op (List.mem_cons_self _ _)) h1)
        (fun op2 hop2 => h2 op2 (List.mem_cons_of_mem _ hop2))
  exact hgen ops critnib_new rfl hvk

theorem runSets_inv (ps : List (List Nat × Nat)) (hvk : ∀ p ∈ ps, ValidKey p.1) :
    Inv (runSets ps).root = true := by
  rw [runSets]
  have hgen : ∀ (l : List (List Nat × Nat)) (c : Critnib), Inv c.root = true →
      (∀ p ∈ l, ValidKey p.1) →
      Inv (l.foldl (fun c p => (critnib_set c p.1 p.2).2) c).root = true := by
    intro l
    induction l with
    | nil =>
      intro c h1 h2
      simpa using h1
    | cons q rest ih =>
      intro c h1 h2
      rw [List.foldl_cons]
      exact ih _ (critnib_set_pres c q.1 q.2 (h2 q (List.mem_cons_self _ _)) h1)
        (fun p hp => h2 p (List.mem_cons_of_mem _ hp))
  exact hgen ps critnib_new rfl hvk

theorem min2L_of_forall : ∀ ch : List (Option CNode),
    (∀ m, some m ∈ ch → min2N m = true) → min2L ch = true := by
  intro ch
  induction ch with
  | nil =>
    intro h
    rw [min2L]
  | cons oc rest ih =>
    intro h
    cases oc with
    | none =>
      rw [min2L]
      exact ih (fun m hm => h m (List.mem_cons_of_mem _ hm))
    | some m =>
      rw [min2L, Bool.and_eq_true]
      exact ⟨h m (List.mem_cons_self _ _),
        ih (fun m2 hm2 => h m2 (List.mem_cons_of_mem _ hm2))⟩

theorem inv_min2 : ∀ n : CNode, invN n = true → min2N n = true := by
  apply cnode_strong_ind
  intro n ih hinv
  cases n with
  | leaf k v => rw [min2N]
  | node ch b s =>
    obtain ⟨hlen, hsmem, hcount, hch, hagree⟩ := (invN_node_iff ch b s).1 hinv
    rw [min2N, Bool.and_eq_true]
    refine ⟨by simpa using hcount, ?_⟩
    apply min2L_of_forall
    intro m hm
    obtain ⟨j, hj⟩ := mem_childAt hm
    exact ih m (sizeOf_of_mem_child hm) (hch j m hj).1

theorem Inv_min2Ok (t : Option CNode) (h : Inv t = true) : min2Ok t = true := by
  cases t with
  | none => rfl
  | some n => exact inv_min2 n h

theorem mem_allBitsL {b2 : Nat} {ch : List (Option CNode)} (h : b2 ∈ allBitsL ch) :
    ∃ m, some m ∈ ch ∧ b2 ∈ allBitsN m := by
  induction ch with
  | nil => simp [allBitsL] at h
  | cons oc rest ih =>
    cases oc with
    | none =>
      rw [allBitsL] at h
      obtain ⟨m, hm1, hm2⟩ := ih h
      exact ⟨m, List.mem_cons_of_mem _ hm1, hm2⟩
    | some m0 =>
      rw [allBitsL] at h
      rcases List.mem_append.1 h with h1 | h1
      · exact ⟨m0, List.mem_cons_self _ _, h1⟩
      · obtain ⟨m, hm1, hm2⟩ := ih h1
        exact ⟨m, List.mem_cons_of_mem _ hm1, hm2⟩

theorem inv_allBits : ∀ n : CNode, invN n = true →
    ∀ b2 ∈ allBitsN n, b2 = 0 ∨ b2 = 4 ∨ b2 = 28 := by
  apply cnode_strong_ind
  intro n ih hinv
  cases n with
  | leaf k v =>
    intro b2 hb2
    rw [allBitsN] at hb2
    simp at hb2
  | node ch b s =>
    obtain ⟨hlen, hsmem, hcount, hch, hagree⟩ := (invN_node_iff ch b s).1 hinv
    intro b2 hb2
    rw [allBitsN] at hb2
    rcases List.mem_cons.1 hb2 with h1 | h1
    · rw [h1]
      exact hsmem
    · obtain ⟨m, hm1, hm2⟩ := mem_allBitsL h1
      obtain ⟨j, hj⟩ := mem_childAt hm1
      exact ih m (sizeOf_of_mem_child hm1) (hch j m hj).1 b2 hm2

/-! ## Claims C1, C3, C4, C8, C9 -/

/-- C1: for every value v and every nonempty valid key that is neither equal
to, a prefix of, nor an extension of any key already in a well-formed index,
critnib_set succeeds (returns 0) and a following critnib_get of the same key
returns v. -/
theorem claim_C1 (c : Critnib) (key : List Nat) (v : Nat)
    (hvk : ValidKey key) (hne : key ≠ [])
    (hinv : Inv c.root = true)
    (hnp : ∀ k2 ∈ keysOf c.root, ¬(key <+: k2) ∧ ¬(k2 <+: key)) :
    (critnib_set c key v).1 = SetResult.ok ∧
    critnib_get (critnib_set c key v).2 key = some v := by
  have hok : (critnib_set c key v).1 = SetResult.ok := by
    cases hroot : c.root with
    | none => simp only [critnib_set, hroot]
    | some r =>
      rw [hroot] at hinv
      obtain ⟨nk, hnk⟩ := Option.isSome_iff_exists.1 (find_witness_isSome key r hinv)
      obtain ⟨v2, hv2⟩ := find_witness_mem key (some r) nk hnk
      have hnk_mem : nk ∈ keysOf c.root := by
        rw [keysOf, hroot]
        exact List.mem_map_of_mem Prod.fst hv2
      have hnp2 := hnp nk hnk_mem
      cases hfd : firstDiff nk key with
      | none =>
        exfalso
        rcases (firstDiff_none_iff nk key).1 hfd with h1 | h1
        · exact hnp2.2 h1
        · exact hnp2.1 h1
      | some diff => simp only [critnib_set, hroot, hnk, hfd]
  have hmain := (critnib_set_main c key v hvk hinv).1 hok
  refine ⟨hok, ?_⟩
  have hmem : (key, v) ∈ leaves (critnib_set c key v).2.root :=
    hmain.2.symm.subset (List.mem_cons_self _ _)
  cases hr2 : (critnib_set c key v).2.root with
  | none =>
    rw [hr2] at hmem
    simp [leaves] at hmem
  | some n2 =>
    rw [hr2] at hmem hmain
    rw [critnib_get, hr2]
    exact get_spec n2 hmain.1 key v (by rwa [leaves_some] at hmem)

/-- C1 witness: inserting key [2, 3] into the empty index succeeds and the
following get returns the stored value. -/
theorem claim_C1_witness :
    (critnib_set critnib_new [2, 3] 9).1 = SetResult.ok ∧
    critnib_get (critnib_set critnib_new [2, 3] 9).2 [2, 3] = some 9 :=
  claim_C1 critnib_new [2, 3] 9
    (by intro x hx; simp at hx; omega)
    (by simp)
    rfl
    (by simp [keysOf, critnib_new, leaves])

/-- C3: when the key of a critnib_set equals a stored key or is a proper
prefix or extension of one, the call returns EEXIST, the index is unchanged,
and a following critnib_get of the stored key still returns its value. -/
theorem claim_C3 (c : Critnib) (key k0 : List Nat) (v2 v0 : Nat)
    (hinv : Inv c.root = true)
    (hmem : (k0, v0) ∈ leaves c.root)
    (hpre : key <+: k0 ∨ k0 <+: key) :
    critnib_set c key v2 = (SetResult.eexist, c) ∧
    critnib_get (critnib_set c key v2).2 k0 = some v0 := by
  have he := critnib_set_eexist c key v2 hinv k0 v0 hmem hpre
  refine ⟨he, ?_⟩
  rw [he]
  show critnib_get c k0 = some v0
  cases hroot : c.root with
  | none =>
    rw [hroot] at hmem
    simp [leaves] at hmem
  | some r =>
    rw [hroot] at hmem hinv
    rw [critnib_get, hroot]
    exact get_spec r hinv k0 v0 (by rwa [leaves_some] at hmem)

/-- C3 witness: on an index holding key [1, 2], setting the proper prefix
[1] returns EEXIST, leaves the index unchanged, and get of [1, 2] still
returns the first value. -/
theorem claim_C3_witness :
    critnib_set (⟨some (.leaf [1, 2] 5)⟩) [1] 7 =
      (SetResult.eexist, (⟨some (.leaf [1, 2] 5)⟩ : Critnib)) ∧
    critnib_get (critnib_set (⟨some (.leaf [1, 2] 5)⟩) [1] 7).2 [1, 2] = some 5 :=
  claim_C3 (⟨some (.leaf [1, 2] 5)⟩) [1] [1, 2] 7 5
    (by show invN (.leaf [1, 2] 5) = true; rw [invN]; decide)
    (by rw [leaves_some, leavesN_leaf]; simp)
    (Or.inl ⟨[2], rfl⟩)

/-- C4: after any sequence of critnib_set and critnib_remove operations with
valid keys starting from the empty index, the tree satisfies the structural
invariant; in particular every internal node has at least two nonempty child
slots. -/
theorem claim_C4 (ops : List COp) (hvk : ∀ op ∈ ops, ValidKey (copKey op)) :
    min2Ok (runCOps ops).root = true ∧ Inv (runCOps ops).root = true := by
  have h := runCOps_pres ops hvk
  exact ⟨Inv_min2Ok _ h, h⟩

/-- C4 witness: the empty operation sequence yields a tree whose internal
nodes (there are none) all have at least two nonempty children. -/
theorem claim_C4_witness :
    min2Ok (runCOps []).root = true ∧ Inv (runCOps []).root = true :=
  claim_C4 [] (by simp)

/-- C8 (amended): every internal node of a tree built by critnib_set has a
bit_shift of 0, 4 or 28.  When the two diverging key bytes agree in their
high bit, the shift is the index of the most significant set bit of their
XOR rounded down to a multiple of the stride, hence 0 or 4; when they differ
in the high bit, the signed-char sign extension makes the shift 28. -/
theorem claim_C8 (ps : List (List Nat × Nat)) (hvk : ∀ p ∈ ps, ValidKey p.1) :
    (∀ b2 ∈ allBits (runSets ps).root, b2 = 0 ∨ b2 = 4 ∨ b2 = 28) ∧
    (∀ x y : Nat, x < 256 → y < 256 → x / 128 = y / 128 →
      shOf x y = util_mssb_index (xor8 x y) / 4 * 4 ∧ shOf x y ≠ 28) ∧
    (∀ x y : Nat, x < 256 → y < 256 → x / 128 ≠ y / 128 → shOf x y = 28) := by
  refine ⟨?_, ?_, ?_⟩
  · intro b2 hb2
    have hinv := runSets_inv ps hvk
    cases hroot : (runSets ps).root with
    | none =>
      rw [hroot] at hb2
      simp [allBits] at hb2
    | some n =>
      rw [hroot] at hb2 hinv
      rw [allBits] at hb2
      exact inv_allBits n hinv b2 hb2
  · intro x y hx hy heq
    have hnot : ¬ 128 ≤ xor8 x y := fun hge =>
      (xor8_hi_iff x y hx hy).1 hge heq
    constructor
    · have hs : sext32 (xor8 x y) = xor8 x y := by
        rw [sext32, if_pos (by omega)]
      rw [shOf, hs]
    · rw [shOf_char x y, if_neg hnot]
      split <;> omega
  · intro x y hx hy hne2
    rw [shOf_char x y, if_pos ((xor8_hi_iff x y hx hy).2 hne2)]

/-- C8 witness: instance of the amended claim for the empty insertion
sequence. -/
theorem claim_C8_witness :
    (∀ b2 ∈ allBits (runSets ([] : List (List Nat × Nat))).root,
      b2 = 0 ∨ b2 = 4 ∨ b2 = 28) ∧
    (∀ x y : Nat, x < 256 → y < 256 → x / 128 = y / 128 →
      shOf x y = util_mssb_index (xor8 x y) / 4 * 4 ∧ shOf x y ≠ 28) ∧
    (∀ x y : Nat, x < 256 → y < 256 → x / 128 ≠ y / 128 → shOf x y = 28) :=
  claim_C8 [] (by simp)

/-- C9: after a successful critnib_set of a valid key on a well-formed
index, the first critnib_remove of the key returns the stored value, a
following critnib_get misses, and a second critnib_remove also misses. -/
theorem claim_C9 (c : Critnib) (key : List Nat) (v : Nat)
    (hvk : ValidKey key) (hinv : Inv c.root = true)
    (hok : (critnib_set c key v).1 = SetResult.ok) :
    (critnib_remove (critnib_set c key v).2 key).1 = some v ∧
    critnib_get (critnib_remove (critnib_set c key v).2 key).2 key = none ∧
    (critnib_remove (critnib_remove (critnib_set c key v).2 key).2 key).1 = none := by
  have hmain := (critnib_set_main c key v hvk hinv).1 hok
  have habs : ∀ p, p ∈ leaves c.root → p.1 ≠ key := by
    intro p hp hk
    have hmm : (key, p.2) ∈ leaves c.root := by
      rw [← hk]
      exact hp
    have hee := critnib_set_eexist c key v hinv key p.2 hmm (Or.inl (List.prefix_refl key))
    rw [hee] at hok
    simp at hok
  have hcnt0 : (leaves c.root).countP (fun q => decide (q.1 = key)) = 0 := by
    rw [List.countP_eq_zero]
    intro p hp hc
    exact habs p hp (of_decide_eq_true hc)
  have hcnt1 : (leaves (critnib_set c key v).2.root).countP
      (fun q => decide (q.1 = key)) = 1 := by
    rw [hmain.2.countP_eq, List.countP_cons]
    simp [hcnt0]
  have hmem1 : (key, v) ∈ leaves (critnib_set c key v).2.root :=
    hmain.2.symm.subset (List.mem_cons_self _ _)
  have hget1 : getRec key (critnib_set c key v).2.root = some v := by
    cases hr : (critnib_set c key v).2.root with
    | none =>
      rw [hr] at hmem1
      simp [leaves] at hmem1
    | some n1 =>
      rw [hr] at hmem1 hmain
      exact get_spec n1 hmain.1 key v (by rwa [leaves_some] at hmem1)
  have hfst1 : (removeRec key (critnib_set c key v).2.root).1 = some v := by
    rw [removeRec_fst]
    exact hget1
  have hrm1 : removeRec key (critnib_set c key v).2.root =
      (some v, (removeRec key (critnib_set c key v).2.root).2) := by
    rw [← hfst1]
  have hrs := removeRec_some_spec key (critnib_set c key v).2.root hmain.1 v _ hrm1
  have hcnt2 : (leaves (removeRec key (critnib_set c key v).2.root).2).countP
      (fun q => decide (q.1 = key)) = 0 := by
    have h1 := hrs.2.1.countP_eq (fun q => decide (q.1 = key))
    rw [hcnt1, List.countP_cons, if_pos (by simp)] at h1
    omega
  have habs2 : ∀ w, (key, w) ∉ leaves (removeRec key (critnib_set c key v).2.root).2 := by
    intro w hw
    have := List.countP_eq_zero.1 hcnt2 (key, w) hw
    simp at this
  have hget2 : getRec key (removeRec key (critnib_set c key v).2.root).2 = none := by
    cases hq : getRec key (removeRec key (critnib_set c key v).2.root).2 with
    | none => rfl
    | some w =>
      exfalso
      exact habs2 w (get_mem key _ w hq)
  refine ⟨?_, ?_, ?_⟩
  · show (removeRec key (critnib_set c key v).2.root).1 = some v
    exact hfst1
  · show getRec key (removeRec key (critnib_set c key v).2.root).2 = none
    exact hget2
  · show (removeRec key (removeRec key (critnib_set c key v).2.root).2).1 = none
    rw [removeRec_fst]
    exact hget2

/-- C9 witness: set [1] into the empty index, then remove returns the value,
get misses, and a second remove misses. -/
theorem claim_C9_witness :
    (critnib_remove (critnib_set critnib_new [1] 5).2 [1]).1 = some 5 ∧
    critnib_get (critnib_remove (critnib_set critnib_new [1] 5).2 [1]).2 [1] = none ∧
    (critnib_remove (critnib_remove (critnib_set critnib_new [1] 5).2 [1]).2 [1]).1 = none :=
  claim_C9 critnib_new [1] 5 (by intro x hx; simp at hx; omega) rfl rfl

end VMC
